import Mathlib

/-!
Shallow embedding of the ID3 decision-tree program (src/ml.py).

Modelling conventions:
* A `Row` is a list of strings; the label is the last element (`row[-1]`).
* Python dicts are insertion-ordered, so every dict in the source
  (`counts`, `splits`, tree children, observations) is embedded as an
  association list that preserves first-insertion order; `setdefault`
  and `counts.get(k, 0) + 1` become the order-preserving `addToGroup`
  and `bump` below.
* Python floats are modelled as real numbers (`ℝ`), with `math.log2 x`
  as `Real.logb 2 x`.
* `row[:index] + row[index+1:]` is `List.eraseIdx row index` (for an
  in-range index both drop exactly the element at `index`; for an
  out-of-range index both return the row unchanged).
* Out-of-range accesses that would raise in Python (`row[-1]` on an
  empty row, `row[i]`, `headers[i]`, `max` of an empty dict) are
  totalized with default values in the main definitions; a separate
  `Option`-valued ("checked") copy of each operation returns `none`
  exactly where Python would raise, and is used to verify the safety
  claim.
* `build_tree` recurses on shrinking row sets; the embedding gives it
  an explicit fuel argument and `build` supplies fuel that is proved
  sufficient (`sizeRows rows + 1`), so that fuel exhaustion is
  unreachable.
-/

abbrev Row : Type := List String

abbrev Rows : Type := List Row

abbrev Obs : Type := List (String × String)

/-- `row[-1]` of src/ml.py, totalized with `""` for the (out-of-contract) empty row. -/
def lastLabel (row : Row) : String := row.getLastD ""

/-- `row[i]` of src/ml.py, totalized with `""` for an out-of-range index. -/
def valAt (row : Row) (i : Nat) : String := row.getD i ""

/-- First-match lookup in an association list: Python `d[k]` / `d.get(k)`. -/
def lookupStr {α : Type} : List (String × α) → String → Option α
  | [], _ => none
  | (k, a) :: rest, key => if k = key then some a else lookupStr rest key

/-- `counts[label] = counts.get(label, 0) + 1` on an insertion-ordered dict:
increment the existing entry in place, or append a fresh entry with count 1. -/
def bump : List (String × Nat) → String → List (String × Nat)
  | [], label => [(label, 1)]
  | (k, c) :: rest, label =>
      if k = label then (k, c + 1) :: rest else (k, c) :: bump rest label

/-- The label-count dict built by the loops in `get_entropy` (lines 42-45)
and `build_tree` (lines 122-125) of src/ml.py. -/
def countsOf (rows : Rows) : List (String × Nat) :=
  rows.foldl (fun counts row => bump counts (lastLabel row)) []

/-- `splits.setdefault(value, []).append(reduced_row)` on an insertion-ordered
dict: append to the existing group in place, or append a fresh group. -/
def addToGroup : List (String × Rows) → String → Row → List (String × Rows)
  | [], value, r => [(value, [r])]
  | (k, g) :: rest, value, r =>
      if k = value then (k, g ++ [r]) :: rest else (k, g) :: addToGroup rest value r

/-- `split_dataset` of src/ml.py (lines 58-71). -/
def split_dataset (dataset : Rows) (index : Nat) : List (String × Rows) :=
  dataset.foldl
    (fun splits row => addToGroup splits (valAt row index) (row.eraseIdx index)) []

/-- `get_entropy` of src/ml.py (lines 31-55): `0.0` for no rows, otherwise
`entropy -= p * log2(p)` over the label counts, guarded by `p > 0`. -/
noncomputable def get_entropy (rows : Rows) : ℝ :=
  if rows = [] then 0.0
  else
    (countsOf rows).foldl
      (fun entropy kv =>
        if ((kv.2 : ℝ) / (rows.length : ℝ)) > 0 then
          entropy - ((kv.2 : ℝ) / (rows.length : ℝ)) *
            Real.logb 2 ((kv.2 : ℝ) / (rows.length : ℝ))
        else entropy)
      0.0

/-- The inner loop of `find_best_split` (lines 96-98 of src/ml.py):
`weighted_entropy += (len(subset)/total_rows) * get_entropy(subset)`
over the groups of a split, in dict order. -/
noncomputable def weighted_entropy (rows : Rows) (i : Nat) : ℝ :=
  (split_dataset rows i).foldl
    (fun acc kv => acc + ((kv.2.length : ℝ) / (rows.length : ℝ)) * get_entropy kv.2)
    0.0

/-- `find_best_split` of src/ml.py (lines 74-106): sentinel `(-1, 0.0)` for
no rows or a single column, otherwise a fold over the candidate columns that
replaces the best pair only on a strict gain improvement. -/
noncomputable def find_best_split (rows : Rows) : Int × ℝ :=
  if rows = [] ∨ (rows.headD []).length ≤ 1 then (-1, 0.0)
  else
    (List.range ((rows.headD []).length - 1)).foldl
      (fun best i =>
        if get_entropy rows - weighted_entropy rows i > best.2 then
          ((i : Int), get_entropy rows - weighted_entropy rows i)
        else best)
      (-1, 0.0)

/-- Information gain of column `i`, as computed inside `find_best_split`. -/
noncomputable def gainAt (rows : Rows) (i : Nat) : ℝ :=
  get_entropy rows - weighted_entropy rows i

/-- `max(counts, key=counts.get)` of src/ml.py (lines 133 and 140): the first
key, in insertion order, whose count no later key strictly exceeds.
Totalized with `""` for the (unreachable) empty dict. -/
def majority (counts : List (String × Nat)) : String :=
  match counts with
  | [] => ""
  | c :: rest => (rest.foldl (fun best kv => if kv.2 > best.2 then kv else best) c).1

/-- The tree values of src/ml.py: `None` and a label string are the
non-dict ("leaf") results of `build_tree`; a decision node is the
single-key dict `{feature: {value: subtree, ...}}` with insertion-ordered
children. -/
inductive DTree : Type
  | leaf : Option String → DTree
  | node : String → List (String × DTree) → DTree

/-- Fuel measure for `build_tree`: every row weighs its length plus one, so
the measure of every recursive partition is strictly smaller (proved below). -/
def sizeRows (rows : Rows) : Nat :=
  rows.foldr (fun r a => r.length + 1 + a) 0

/-- `build_tree` of src/ml.py (lines 109-155), with explicit fuel (see the
header comment): empty input gives the absent tree `None`; a single distinct
label gives that label; a single remaining column, or a best gain of `0`,
gives the majority label; otherwise a decision node on the best column, with
one recursively built subtree per group of the split. -/
noncomputable def build_tree : Nat → Rows → List String → DTree
  | 0, _, _ => DTree.leaf none
  | fuel + 1, rows, headers =>
    if rows = [] then DTree.leaf none
    else if (countsOf rows).length = 1 then
      DTree.leaf (some ((countsOf rows).headD ("", 0)).1)
    else if (rows.headD []).length = 1 then
      DTree.leaf (some (majority (countsOf rows)))
    else if (find_best_split rows).2 = 0 then
      DTree.leaf (some (majority (countsOf rows)))
    else
      DTree.node ((headers.getD (find_best_split rows).1.toNat ""))
        ((split_dataset rows (find_best_split rows).1.toNat).map
          (fun p =>
            (p.1, build_tree fuel p.2 (headers.eraseIdx (find_best_split rows).1.toNat))))

/-- `build_tree(rows, headers)` as called by clients: the fuel
`sizeRows rows + 1` is proved sufficient below (claim C9). -/
noncomputable def build (rows : Rows) (headers : List String) : DTree :=
  build_tree (sizeRows rows + 1) rows headers

/-- `classify` of src/ml.py (lines 158-175): a non-dict tree (a label, or
`None`) is returned verbatim; otherwise the single feature of the node is
looked up in the observation, an absent feature or an unseen value yields
the sentinel `"Unknown"`, and a matching child is recursed into. -/
def classify (observation : Obs) : DTree → Option String
  | DTree.leaf v => v
  | DTree.node feature children =>
    match lookupStr observation feature with
    | none => some "Unknown"
    | some value =>
      match h : lookupStr children value with
      | none => some "Unknown"
      | some next_step => classify observation next_step
termination_by t => sizeOf t
decreasing_by
  have key : ∀ (cs : List (String × DTree)) (t : DTree),
      lookupStr cs value = some t → sizeOf t < sizeOf cs := by
    intro cs
    induction cs with
    | nil => intro t h2; simp [lookupStr] at h2
    | cons p rest ih =>
      intro t h2
      obtain ⟨k, a⟩ := p
      simp only [lookupStr] at h2
      by_cases hk : k = value
      · rw [if_pos hk] at h2
        cases h2
        simp only [List.cons.sizeOf_spec, Prod.mk.sizeOf_spec]
        omega
      · rw [if_neg hk] at h2
        have := ih t h2
        simp only [List.cons.sizeOf_spec]
        omega
  have := key children next_step h
  simp only [DTree.node.sizeOf_spec]
  omega

/-- `classify` with an explicit step bound, used to express that the walk of
src/ml.py lines 158-175 terminates within `height` steps (claim C9). -/
def classifyFuel (observation : Obs) : Nat → DTree → Option String
  | 0, _ => none
  | _ + 1, DTree.leaf v => v
  | fuel + 1, DTree.node feature children =>
    match lookupStr observation feature with
    | none => some "Unknown"
    | some value =>
      match lookupStr children value with
      | none => some "Unknown"
      | some next_step => classifyFuel observation fuel next_step

mutual

/-- Height of a tree: leaves are 0, a node is one more than its children. -/
def heightT : DTree → Nat
  | DTree.leaf _ => 0
  | DTree.node _ cs => heightL cs + 1

/-- Maximum height among a children list. -/
def heightL : List (String × DTree) → Nat
  | [] => 0
  | p :: rest => max (heightT p.2) (heightL rest)

end

/-- Checked `row[-1]`: `none` exactly where Python raises `IndexError`. -/
def lastLabelE (row : Row) : Option String := row.getLast?

/-- Checked `row[i]`: `none` exactly where Python raises `IndexError`. -/
def valAtE (row : Row) (i : Nat) : Option String := row.get? i

/-- Checked label counting: fails if some row is empty. -/
def countsOfE (rows : Rows) : Option (List (String × Nat)) :=
  rows.foldlM (fun counts row => (lastLabelE row).map (fun label => bump counts label)) []

/-- Checked `get_entropy`: the label access `row[-1]` is checked; the
division is guarded by the surrounding `if not rows` branch. -/
noncomputable def get_entropyE (rows : Rows) : Option ℝ :=
  if rows = [] then some 0.0
  else
    (countsOfE rows).map (fun counts =>
      counts.foldl
        (fun entropy kv =>
          if ((kv.2 : ℝ) / (rows.length : ℝ)) > 0 then
            entropy - ((kv.2 : ℝ) / (rows.length : ℝ)) *
              Real.logb 2 ((kv.2 : ℝ) / (rows.length : ℝ))
          else entropy)
        0.0)

/-- Checked `split_dataset`: the access `row[index]` is checked. -/
def split_datasetE (dataset : Rows) (index : Nat) : Option (List (String × Rows)) :=
  dataset.foldlM
    (fun splits row =>
      (valAtE row index).map (fun value => addToGroup splits value (row.eraseIdx index)))
    []

/-- Checked `find_best_split`: `rows[0]` is protected by the short-circuit
`not rows` test of the source; the split and the entropies of its groups
are checked; the division by `total_rows` is guarded by `rows ≠ []`. -/
noncomputable def find_best_splitE (rows : Rows) : Option (Int × ℝ) :=
  if rows = [] ∨ (rows.headD []).length ≤ 1 then some (-1, 0.0)
  else
    match get_entropyE rows with
    | none => none
    | some base =>
      (List.range ((rows.headD []).length - 1)).foldlM
        (fun best i =>
          match split_datasetE rows i with
          | none => none
          | some splits =>
            match splits.foldlM
                (fun acc kv =>
                  (get_entropyE kv.2).map
                    (fun h => acc + ((kv.2.length : ℝ) / (rows.length : ℝ)) * h))
                0.0 with
            | none => none
            | some weighted =>
              some (if base - weighted > best.2 then ((i : Int), base - weighted) else best))
        (-1, 0.0)

/-- Checked `max(counts, key=counts.get)`: Python raises on an empty dict. -/
def majorityE (counts : List (String × Nat)) : Option String :=
  match counts with
  | [] => none
  | c :: rest => some (rest.foldl (fun best kv => if kv.2 > best.2 then kv else best) c).1

/-- Checked `build_tree`: every label access, the `headers[best_idx]` access,
the split accesses and `max` on the counts are checked; exhausted fuel also
gives `none` (it is unreachable for the fuel `build` supplies). -/
noncomputable def build_treeE : Nat → Rows → List String → Option DTree
  | 0, _, _ => none
  | fuel + 1, rows, headers =>
    if rows = [] then some (DTree.leaf none)
    else
      match countsOfE rows with
      | none => none
      | some counts =>
        if counts.length = 1 then some (DTree.leaf (some (counts.headD ("", 0)).1))
        else if (rows.headD []).length = 1 then
          (majorityE counts).map (fun m => DTree.leaf (some m))
        else
          match find_best_splitE rows with
          | none => none
          | some best =>
            if best.2 = 0 then (majorityE counts).map (fun m => DTree.leaf (some m))
            else
              match headers.get? best.1.toNat with
              | none => none
              | some best_feature =>
                match split_datasetE rows best.1.toNat with
                | none => none
                | some splits =>
                  (splits.mapM
                      (fun p =>
                        (build_treeE fuel p.2 (headers.eraseIdx best.1.toNat)).map
                          (fun t => (p.1, t)))).map
                    (fun children => DTree.node best_feature children)

/-- Checked `classify`: in the embedding a decision node carries its single
feature (so `list(tree.keys())[0]` cannot fail), the observation access uses
`.get`, and the child access is guarded by the `in` test; the walk therefore
never fails, which the safety theorem makes explicit. -/
def classifyE (observation : Obs) : DTree → Option (Option String)
  | DTree.leaf v => some v
  | DTree.node feature children =>
    match lookupStr observation feature with
    | none => some (some "Unknown")
    | some value =>
      match h : lookupStr children value with
      | none => some (some "Unknown")
      | some next_step => classifyE observation next_step
termination_by t => sizeOf t
decreasing_by
  have key : ∀ (cs : List (String × DTree)) (t : DTree),
      lookupStr cs value = some t → sizeOf t < sizeOf cs := by
    intro cs
    induction cs with
    | nil => intro t h2; simp [lookupStr] at h2
    | cons p rest ih =>
      intro t h2
      obtain ⟨k, a⟩ := p
      simp only [lookupStr] at h2
      by_cases hk : k = value
      · rw [if_pos hk] at h2
        cases h2
        simp only [List.cons.sizeOf_spec, Prod.mk.sizeOf_spec]
        omega
      · rw [if_neg hk] at h2
        have := ih t h2
        simp only [List.cons.sizeOf_spec]
        omega
  have := key children next_step h
  simp only [DTree.node.sizeOf_spec]
  omega

/-- The no-contradiction hypothesis of claim C1: rows with the same feature
vector carry the same label. -/
def noContradiction (rows : Rows) : Prop :=
  ∀ r ∈ rows, ∀ r' ∈ rows, r.dropLast = r'.dropLast → lastLabel r = lastLabel r'

instance : DecidablePred noContradiction := fun rows =>
  List.decidableBAll _ rows

/-- Every row set reached by the recursion of `build_tree` is empty, pure,
or split with strictly positive information gain (the amended hypothesis of
claim C1).  The fuel mirrors the fuel of `build_tree`. -/
noncomputable def gainfulRec : Nat → Rows → Prop
  | 0, _ => False
  | fuel + 1, rows =>
    rows = [] ∨ (countsOf rows).length = 1 ∨
      (2 ≤ (rows.headD []).length ∧ (find_best_split rows).2 ≠ 0 ∧
        ∀ p ∈ split_dataset rows (find_best_split rows).1.toNat, gainfulRec fuel p.2)

/-- Structural invariant of claim C7: every decision node has a non-empty
children list, and no child is the absent tree `leaf none`. -/
inductive NodeOk : DTree → Prop
  | leaf (v : Option String) : NodeOk (DTree.leaf v)
  | node (f : String) (cs : List (String × DTree)) :
      cs ≠ [] →
      (∀ p ∈ cs, p.2 ≠ DTree.leaf none) →
      (∀ p ∈ cs, NodeOk p.2) →
      NodeOk (DTree.node f cs)

/-- The loop of `find_best_split` run over the first `k` candidate columns
(a proof-side name for the fold appearing in `find_best_split`). -/
noncomputable def fbsFold (rows : Rows) (k : Nat) : Int × ℝ :=
  (List.range k).foldl
    (fun best i =>
      if get_entropy rows - weighted_entropy rows i > best.2 then
        ((i : Int), get_entropy rows - weighted_entropy rows i)
      else best)
    (-1, 0.0)

/-- The summand contributed by one label count to `get_entropy`:
`p * log2 p` subtracted when `p > 0`, nothing otherwise. -/
noncomputable def entTerm (T : ℝ) (c : Nat) : ℝ :=
  if ((c : ℝ) / T) > 0 then -(((c : ℝ) / T) * Real.logb 2 ((c : ℝ) / T)) else 0

theorem lookupStr_eq_none {α : Type} (l : List (String × α)) (k : String) :
    lookupStr l k = none ↔ k ∉ l.map Prod.fst := by
  induction l with
  | nil => simp [lookupStr]
  | cons p rest ih =>
    obtain ⟨k', a⟩ := p
    by_cases hk : k' = k
    · subst hk
      simp [lookupStr]
    · simp only [lookupStr, if_neg hk, List.map_cons, List.mem_cons, ih]
      constructor
      · rintro h (h1 | h2)
        · exact hk h1.symm
        · exact h h2
      · intro h h2
        exact h (Or.inr h2)

theorem lookupStr_mem {α : Type} {l : List (String × α)} {k : String} {a : α}
    (h : lookupStr l k = some a) : (k, a) ∈ l := by
  induction l with
  | nil => simp [lookupStr] at h
  | cons p rest ih =>
    obtain ⟨k', b⟩ := p
    simp only [lookupStr] at h
    by_cases hk : k' = k
    · rw [if_pos hk] at h
      cases h
      subst hk
      exact List.mem_cons_self _ _
    · rw [if_neg hk] at h
      exact List.mem_cons_of_mem _ (ih h)

theorem mem_lookupStr {α : Type} {l : List (String × α)} {k : String} {a : α}
    (hnd : (l.map Prod.fst).Nodup) (h : (k, a) ∈ l) : lookupStr l k = some a := by
  induction l with
  | nil => simp at h
  | cons p rest ih =>
    obtain ⟨k', b⟩ := p
    simp only [List.map_cons, List.nodup_cons] at hnd
    rcases List.mem_cons.1 h with h1 | h2
    · cases h1
      simp [lookupStr]
    · have hk : k' ≠ k := by
        intro he
        apply hnd.1
        rw [he]
        exact List.mem_map.2 ⟨(k, a), h2, rfl⟩
      simp only [lookupStr, if_neg hk]
      exact ih hnd.2 h2

theorem bump_ne_nil (cs : List (String × Nat)) (l : String) : bump cs l ≠ [] := by
  cases cs with
  | nil => simp [bump]
  | cons c rest =>
    obtain ⟨k, n⟩ := c
    simp only [bump]
    split <;> simp

theorem keys_bump (cs : List (String × Nat)) (l : String) :
    (bump cs l).map Prod.fst =
      if l ∈ cs.map Prod.fst then cs.map Prod.fst else cs.map Prod.fst ++ [l] := by
  induction cs with
  | nil => simp [bump]
  | cons c rest ih =>
    obtain ⟨k, n⟩ := c
    by_cases hk : k = l
    · subst hk
      simp [bump]
    · have hne : l = k ↔ False := by
        constructor
        · intro h; exact hk h.symm
        · intro h; exact h.elim
      simp only [bump, if_neg hk, List.map_cons, List.mem_cons, hne, false_or, ih]
      by_cases hmem : l ∈ rest.map Prod.fst <;> simp [hmem]

theorem sum_bump (cs : List (String × Nat)) (l : String) :
    ((bump cs l).map Prod.snd).sum = ((cs.map Prod.snd).sum) + 1 := by
  induction cs with
  | nil => simp [bump]
  | cons c rest ih =>
    obtain ⟨k, n⟩ := c
    by_cases hk : k = l
    · subst hk
      simp [bump]
      omega
    · simp only [bump, if_neg hk, List.map_cons, List.sum_cons, ih]
      omega

theorem mem_bump_pos (cs : List (String × Nat)) (l : String) :
    (∀ kv ∈ cs, 1 ≤ kv.2) → ∀ kv ∈ bump cs l, 1 ≤ kv.2 := by
  induction cs with
  | nil =>
    intro _ kv hkv
    simp only [bump, List.mem_singleton] at hkv
    subst hkv
    exact le_refl 1
  | cons c rest ih =>
    obtain ⟨k, n⟩ := c
    intro h kv hkv
    by_cases hk : k = l
    · subst hk
      rw [show bump ((k, n) :: rest) k = (k, n + 1) :: rest from by simp [bump]] at hkv
      rcases List.mem_cons.1 hkv with h1 | h2
      · subst h1; simp
      · exact h kv (List.mem_cons_of_mem _ h2)
    · rw [show bump ((k, n) :: rest) l = (k, n) :: bump rest l from by
          simp [bump, hk]] at hkv
      rcases List.mem_cons.1 hkv with h1 | h2
      · subst h1
        exact h (k, n) (List.mem_cons_self _ _)
      · exact ih (fun kv hkv => h kv (List.mem_cons_of_mem _ hkv)) kv h2

theorem countsOf_ne_nil {rows : Rows} (h : rows ≠ []) : countsOf rows ≠ [] := by
  have haux : ∀ (l : Rows) (acc : List (String × Nat)), acc ≠ [] →
      l.foldl (fun counts row => bump counts (lastLabel row)) acc ≠ [] := by
    intro l
    induction l with
    | nil => intro acc hacc; exact hacc
    | cons r rest ih => intro acc _; exact ih _ (bump_ne_nil _ _)
  cases rows with
  | nil => exact absurd rfl h
  | cons r rest =>
    show (r :: rest).foldl (fun counts row => bump counts (lastLabel row)) [] ≠ []
    rw [List.foldl_cons]
    exact haux rest _ (bump_ne_nil _ _)

theorem mem_keys_countsOf (rows : Rows) (k : String) :
    k ∈ (countsOf rows).map Prod.fst ↔ ∃ r ∈ rows, lastLabel r = k := by
  have haux : ∀ (l : Rows) (acc : List (String × Nat)),
      (k ∈ (l.foldl (fun counts row => bump counts (lastLabel row)) acc).map Prod.fst ↔
        k ∈ acc.map Prod.fst ∨ ∃ r ∈ l, lastLabel r = k) := by
    intro l
    induction l with
    | nil => intro acc; simp
    | cons r rest ih =>
      intro acc
      rw [List.foldl_cons, ih]
      rw [keys_bump]
      constructor
      · rintro (h1 | h2)
        · by_cases hmem : lastLabel r ∈ acc.map Prod.fst
          · rw [if_pos hmem] at h1
            exact Or.inl h1
          · rw [if_neg hmem] at h1
            rcases List.mem_append.1 h1 with h3 | h4
            · exact Or.inl h3
            · exact Or.inr ⟨r, List.mem_cons_self _ _, (List.mem_singleton.1 h4).symm⟩
        · exact Or.inr (by
            obtain ⟨r', hr', hl⟩ := h2
            exact ⟨r', List.mem_cons_of_mem _ hr', hl⟩)
      · rintro (h1 | ⟨r', hr', hl⟩)
        · left
          split
          · exact h1
          · exact List.mem_append_left _ h1
        · rcases List.mem_cons.1 hr' with h2 | h3
          · left
            rw [← hl, h2]
            split
            · rename_i hc
              exact hc
            · simp
          · exact Or.inr ⟨r', h3, hl⟩
  rw [show countsOf rows = rows.foldl (fun counts row => bump counts (lastLabel row)) []
      from rfl, haux]
  simp

theorem keys_countsOf_nodup (rows : Rows) : ((countsOf rows).map Prod.fst).Nodup := by
  have haux : ∀ (l : Rows) (acc : List (String × Nat)), (acc.map Prod.fst).Nodup →
      ((l.foldl (fun counts row => bump counts (lastLabel row)) acc).map Prod.fst).Nodup := by
    intro l
    induction l with
    | nil => intro acc h; exact h
    | cons r rest ih =>
      intro acc h
      rw [List.foldl_cons]
      refine ih _ ?_
      rw [keys_bump]
      split
      · exact h
      · rename_i hmem
        simp [List.nodup_append, h, hmem]
  exact haux rows [] (by simp)

theorem sum_countsOf (rows : Rows) : ((countsOf rows).map Prod.snd).sum = rows.length := by
  have haux : ∀ (l : Rows) (acc : List (String × Nat)),
      ((l.foldl (fun counts row => bump counts (lastLabel row)) acc).map Prod.snd).sum =
        (acc.map Prod.snd).sum + l.length := by
    intro l
    induction l with
    | nil => intro acc; simp
    | cons r rest ih =>
      intro acc
      rw [List.foldl_cons, ih, sum_bump]
      simp
      omega
  rw [show countsOf rows = rows.foldl (fun counts row => bump counts (lastLabel row)) []
      from rfl, haux]
  simp

theorem mem_countsOf_pos (rows : Rows) : ∀ kv ∈ countsOf rows, 1 ≤ kv.2 := by
  have haux : ∀ (l : Rows) (acc : List (String × Nat)), (∀ kv ∈ acc, 1 ≤ kv.2) →
      ∀ kv ∈ l.foldl (fun counts row => bump counts (lastLabel row)) acc, 1 ≤ kv.2 := by
    intro l
    induction l with
    | nil => intro acc h; exact h
    | cons r rest ih =>
      intro acc h
      rw [List.foldl_cons]
      exact ih _ (mem_bump_pos _ _ h)
  exact haux rows [] (by simp)

theorem addToGroup_cons_eq (k : String) (g : Rows) (rest : List (String × Rows)) (r : Row) :
    addToGroup ((k, g) :: rest) k r = (k, g ++ [r]) :: rest := by
  simp [addToGroup]

theorem addToGroup_cons_ne {k v : String} (hk : k ≠ v) (g : Rows)
    (rest : List (String × Rows)) (r : Row) :
    addToGroup ((k, g) :: rest) v r = (k, g) :: addToGroup rest v r := by
  simp [addToGroup, hk]

theorem lookupStr_addToGroup (gs : List (String × Rows)) (v k : String) (r : Row) :
    lookupStr (addToGroup gs v r) k =
      if k = v then some ((lookupStr gs v).getD [] ++ [r]) else lookupStr gs k := by
  induction gs with
  | nil =>
    by_cases hk : k = v
    · subst hk
      simp [addToGroup, lookupStr]
    · have hv : ¬ v = k := fun he => hk he.symm
      simp [addToGroup, lookupStr, hk, hv]
  | cons p rest ih =>
    obtain ⟨k', g⟩ := p
    by_cases h1 : k' = v
    · subst h1
      rw [addToGroup_cons_eq]
      by_cases hk : k = k'
      · subst hk
        simp [lookupStr]
      · have hk2 : ¬ k' = k := fun he => hk he.symm
        simp [lookupStr, hk, hk2]
    · rw [addToGroup_cons_ne h1]
      by_cases hk : k' = k
      · subst hk
        have hkv : ¬ k' = v := h1
        simp [lookupStr, hkv]
      · simp only [lookupStr, if_neg hk, ih]
        simp [h1]

theorem lookupStr_split_foldl (i : Nat) (rows : Rows) (acc : List (String × Rows))
    (v : String) :
    lookupStr (rows.foldl (fun splits row =>
        addToGroup splits (valAt row i) (row.eraseIdx i)) acc) v =
      if lookupStr acc v = none ∧ rows.filter (fun r => valAt r i == v) = [] then none
      else some ((lookupStr acc v).getD [] ++
        (rows.filter (fun r => valAt r i == v)).map (fun r => r.eraseIdx i)) := by
  induction rows generalizing acc with
  | nil =>
    cases h : lookupStr acc v <;> simp [h]
  | cons r rest ih =>
    by_cases hv : valAt r i = v
    · have hb : (valAt r i == v) = true := by simp [hv]
      have hstep : lookupStr (addToGroup acc (valAt r i) (r.eraseIdx i)) v
          = some ((lookupStr acc v).getD [] ++ [r.eraseIdx i]) := by
        rw [lookupStr_addToGroup, if_pos hv.symm, hv]
      have hfil : List.filter (fun x => valAt x i == v) (r :: rest)
          = r :: List.filter (fun x => valAt x i == v) rest := by
        rw [List.filter_cons, if_pos hb]
      rw [List.foldl_cons, ih, hstep, hfil]
      have h1 : ¬ (some ((lookupStr acc v).getD [] ++ [r.eraseIdx i]) = none ∧
          List.filter (fun x => valAt x i == v) rest = []) := by simp
      have h2 : ¬ (lookupStr acc v = none ∧
          (r :: List.filter (fun x => valAt x i == v) rest) = []) :=
        fun hc => List.cons_ne_nil _ _ hc.2
      rw [if_neg h1, if_neg h2]
      simp
    · have hb : ¬ ((valAt r i == v) = true) := by simp [beq_iff_eq, hv]
      have hstep : lookupStr (addToGroup acc (valAt r i) (r.eraseIdx i)) v
          = lookupStr acc v := by
        rw [lookupStr_addToGroup, if_neg (fun he => hv he.symm)]
      have hfil : List.filter (fun x => valAt x i == v) (r :: rest)
          = List.filter (fun x => valAt x i == v) rest := by
        rw [List.filter_cons, if_neg hb]
      rw [List.foldl_cons, ih, hstep, hfil]

theorem lookupStr_split (rows : Rows) (i : Nat) (v : String) :
    lookupStr (split_dataset rows i) v =
      if rows.filter (fun r => valAt r i == v) = [] then none
      else some ((rows.filter (fun r => valAt r i == v)).map (fun r => r.eraseIdx i)) := by
  have h := lookupStr_split_foldl i rows [] v
  simp only [lookupStr] at h
  rw [show split_dataset rows i = rows.foldl (fun splits row =>
      addToGroup splits (valAt row i) (row.eraseIdx i)) [] from rfl, h]
  simp

theorem mem_keys_split (rows : Rows) (i : Nat) (k : String) :
    k ∈ (split_dataset rows i).map Prod.fst ↔ ∃ r ∈ rows, valAt r i = k := by
  rw [← not_iff_not, ← lookupStr_eq_none, lookupStr_split]
  by_cases h : rows.filter (fun r => valAt r i == k) = []
  · rw [if_pos h]
    simp only [List.filter_eq_nil_iff] at h
    refine iff_of_true rfl ?_
    rintro ⟨r, hr, he⟩
    exact (h r hr) (by simp [he])
  · rw [if_neg h]
    simp only [Option.some_ne_none, false_iff]
    push_neg
    have : ∃ r ∈ rows, (valAt r i == k) = true := by
      rcases List.exists_mem_of_ne_nil _ h with ⟨r, hr⟩
      have := List.mem_filter.1 hr
      exact ⟨r, this.1, this.2⟩
    obtain ⟨r, hr, hbeq⟩ := this
    exact ⟨r, hr, beq_iff_eq.1 hbeq⟩

theorem keys_addToGroup (gs : List (String × Rows)) (v : String) (r : Row) :
    (addToGroup gs v r).map Prod.fst =
      if v ∈ gs.map Prod.fst then gs.map Prod.fst else gs.map Prod.fst ++ [v] := by
  induction gs with
  | nil => simp [addToGroup]
  | cons p rest ih =>
    obtain ⟨k, g⟩ := p
    by_cases hk : k = v
    · subst hk
      rw [addToGroup_cons_eq]
      simp
    · have hne : v = k ↔ False := by
        constructor
        · intro h; exact hk h.symm
        · intro h; exact h.elim
      rw [addToGroup_cons_ne hk]
      simp only [List.map_cons, List.mem_cons, hne, false_or, ih]
      by_cases hmem : v ∈ rest.map Prod.fst <;> simp [hmem]

theorem keys_split_nodup (rows : Rows) (i : Nat) :
    ((split_dataset rows i).map Prod.fst).Nodup := by
  have haux : ∀ (l : Rows) (acc : List (String × Rows)), (acc.map Prod.fst).Nodup →
      ((l.foldl (fun splits row =>
        addToGroup splits (valAt row i) (row.eraseIdx i)) acc).map Prod.fst).Nodup := by
    intro l
    induction l with
    | nil => intro acc h; exact h
    | cons r rest ih =>
      intro acc h
      rw [List.foldl_cons]
      refine ih _ ?_
      rw [keys_addToGroup]
      split
      · exact h
      · rename_i hmem
        simp [List.nodup_append, h, hmem]
  exact haux rows [] (by simp)

theorem mem_split_eq {rows : Rows} {i : Nat} {v : String} {g : Rows}
    (h : (v, g) ∈ split_dataset rows i) :
    rows.filter (fun r => valAt r i == v) ≠ [] ∧
      g = (rows.filter (fun r => valAt r i == v)).map (fun r => r.eraseIdx i) := by
  have hl := mem_lookupStr (keys_split_nodup rows i) h
  rw [lookupStr_split] at hl
  by_cases hf : rows.filter (fun r => valAt r i == v) = []
  · rw [if_pos hf] at hl
    exact absurd hl (by simp)
  · rw [if_neg hf] at hl
    exact ⟨hf, (Option.some_injective _ hl).symm⟩

theorem sizes_addToGroup (gs : List (String × Rows)) (v : String) (r : Row) :
    ((addToGroup gs v r).map (fun p => p.2.length)).sum =
      ((gs.map (fun p => p.2.length)).sum) + 1 := by
  induction gs with
  | nil => simp [addToGroup]
  | cons p rest ih =>
    obtain ⟨k, g⟩ := p
    by_cases hk : k = v
    · subst hk
      rw [addToGroup_cons_eq]
      simp
      omega
    · rw [addToGroup_cons_ne hk]
      simp only [List.map_cons, List.sum_cons, ih]
      omega

theorem sum_sizes_split (rows : Rows) (i : Nat) :
    (((split_dataset rows i).map (fun p => p.2.length)).sum) = rows.length := by
  have haux : ∀ (l : Rows) (acc : List (String × Rows)),
      ((l.foldl (fun splits row =>
          addToGroup splits (valAt row i) (row.eraseIdx i)) acc).map
        (fun p => p.2.length)).sum = ((acc.map (fun p => p.2.length)).sum) + l.length := by
    intro l
    induction l with
    | nil => intro acc; simp
    | cons r rest ih =>
      intro acc
      rw [List.foldl_cons, ih, sizes_addToGroup]
      simp
      omega
  rw [show split_dataset rows i = rows.foldl (fun splits row =>
      addToGroup splits (valAt row i) (row.eraseIdx i)) [] from rfl, haux]
  simp

theorem row_in_split {rows : Rows} {r : Row} (i : Nat) (hr : r ∈ rows) :
    ∃ g, lookupStr (split_dataset rows i) (valAt r i) = some g ∧ r.eraseIdx i ∈ g := by
  have hmem : r ∈ rows.filter (fun x => valAt x i == valAt r i) :=
    List.mem_filter.2 ⟨hr, by simp⟩
  have hne : rows.filter (fun x => valAt x i == valAt r i) ≠ [] :=
    List.ne_nil_of_mem hmem
  refine ⟨(rows.filter (fun x => valAt x i == valAt r i)).map (fun x => x.eraseIdx i),
    ?_, ?_⟩
  · rw [lookupStr_split, if_neg hne]
  · exact List.mem_map.2 ⟨r, hmem, rfl⟩

theorem entropy_foldl_eq (T : ℝ) (l : List (String × Nat)) (a : ℝ) :
    l.foldl
      (fun entropy kv =>
        if ((kv.2 : ℝ) / T) > 0 then
          entropy - ((kv.2 : ℝ) / T) * Real.logb 2 ((kv.2 : ℝ) / T)
        else entropy)
      a = a + (l.map (fun kv => entTerm T kv.2)).sum := by
  induction l generalizing a with
  | nil => simp
  | cons kv rest ih =>
    rw [List.foldl_cons, ih, List.map_cons, List.sum_cons]
    unfold entTerm
    by_cases h : ((kv.2 : ℝ) / T) > 0
    · rw [if_pos h, if_pos h]
      ring
    · rw [if_neg h, if_neg h]
      ring

theorem get_entropy_eq_sum {rows : Rows} (h : rows ≠ []) :
    get_entropy rows =
      ((countsOf rows).map (fun kv => entTerm (rows.length : ℝ) kv.2)).sum := by
  unfold get_entropy
  rw [if_neg h, entropy_foldl_eq]
  norm_num

theorem entTerm_nonneg {T : ℝ} {c : Nat} (hc : 1 ≤ c) (hcT : (c : ℝ) ≤ T) :
    0 ≤ entTerm T c := by
  have hc0 : (0 : ℝ) < (c : ℝ) := by
    have : (1 : ℝ) ≤ (c : ℝ) := by exact_mod_cast hc
    linarith
  have hT : (0 : ℝ) < T := lt_of_lt_of_le hc0 hcT
  have hp : (0 : ℝ) < (c : ℝ) / T := div_pos hc0 hT
  have hp1 : (c : ℝ) / T ≤ 1 := (div_le_one hT).2 hcT
  unfold entTerm
  rw [if_pos hp]
  have hlog : Real.logb 2 ((c : ℝ) / T) ≤ 0 :=
    Real.logb_nonpos (by norm_num) (le_of_lt hp) hp1
  nlinarith

theorem entTerm_pos_of_lt {T : ℝ} {c : Nat} (hc : 1 ≤ c) (hcT : (c : ℝ) < T) :
    0 < entTerm T c := by
  have hc0 : (0 : ℝ) < (c : ℝ) := by
    have : (1 : ℝ) ≤ (c : ℝ) := by exact_mod_cast hc
    linarith
  have hT : (0 : ℝ) < T := lt_trans hc0 hcT
  have hp : (0 : ℝ) < (c : ℝ) / T := div_pos hc0 hT
  have hp1 : (c : ℝ) / T < 1 := (div_lt_one hT).2 hcT
  unfold entTerm
  rw [if_pos hp]
  have hlog : Real.logb 2 ((c : ℝ) / T) < 0 :=
    Real.logb_neg (by norm_num) hp hp1
  nlinarith

theorem entTerm_of_eq {T : ℝ} {c : Nat} (hT : (0 : ℝ) < T) (hcT : (c : ℝ) = T) :
    entTerm T c = 0 := by
  unfold entTerm
  rw [hcT]
  rw [div_self (ne_of_gt hT)]
  rw [if_pos (by norm_num : (0 : ℝ) < 1)]
  simp [Real.logb_one]

theorem mem_countsOf_le_total {rows : Rows} {kv : String × Nat}
    (h : kv ∈ countsOf rows) : kv.2 ≤ rows.length := by
  have hmem : kv.2 ∈ (countsOf rows).map Prod.snd := List.mem_map.2 ⟨kv, h, rfl⟩
  have hle := List.single_le_sum (l := (countsOf rows).map Prod.snd)
    (fun x _ => Nat.zero_le x) _ hmem
  rw [sum_countsOf] at hle
  exact hle

theorem sum_zero_of_nonneg {l : List ℝ} (h0 : ∀ x ∈ l, 0 ≤ x) (hs : l.sum = 0) :
    ∀ x ∈ l, x = 0 := by
  induction l with
  | nil => simp
  | cons y rest ih =>
    rw [List.sum_cons] at hs
    have hy : 0 ≤ y := h0 y (List.mem_cons_self _ _)
    have hrest : 0 ≤ rest.sum :=
      List.sum_nonneg (fun x hx => h0 x (List.mem_cons_of_mem _ hx))
    have hy0 : y = 0 := by linarith
    have hrest0 : rest.sum = 0 := by linarith
    intro x hx
    rcases List.mem_cons.1 hx with h1 | h2
    · rw [h1, hy0]
    · exact ih (fun x hx => h0 x (List.mem_cons_of_mem _ hx)) hrest0 x h2

theorem get_entropy_nonneg (rows : Rows) : 0 ≤ get_entropy rows := by
  by_cases h : rows = []
  · subst h
    simp [get_entropy]
    norm_num
  · rw [get_entropy_eq_sum h]
    refine List.sum_nonneg ?_
    intro x hx
    obtain ⟨kv, hkv, rfl⟩ := List.mem_map.1 hx
    have h1 : 1 ≤ kv.2 := mem_countsOf_pos rows kv hkv
    have h2 : (kv.2 : ℝ) ≤ (rows.length : ℝ) := by
      exact_mod_cast mem_countsOf_le_total hkv
    exact entTerm_nonneg h1 h2

theorem get_entropy_zero_iff {rows : Rows} (h : rows ≠ []) :
    get_entropy rows = 0 ↔ (countsOf rows).length = 1 := by
  have hlen : 1 ≤ rows.length := by
    cases rows with
    | nil => exact absurd rfl h
    | cons r rest => simp
  constructor
  · intro hz
    rw [get_entropy_eq_sum h] at hz
    have hterms := sum_zero_of_nonneg (l := (countsOf rows).map
      (fun kv => entTerm (rows.length : ℝ) kv.2))
      (by
        intro x hx
        obtain ⟨kv, hkv, rfl⟩ := List.mem_map.1 hx
        exact entTerm_nonneg (mem_countsOf_pos rows kv hkv)
          (by exact_mod_cast mem_countsOf_le_total hkv))
      hz
    have hall : ∀ kv ∈ countsOf rows, kv.2 = rows.length := by
      intro kv hkv
      have hterm := hterms _ (List.mem_map.2 ⟨kv, hkv, rfl⟩)
      by_contra hne
      have hlt : (kv.2 : ℝ) < (rows.length : ℝ) := by
        have hle := mem_countsOf_le_total hkv
        have : kv.2 < rows.length := lt_of_le_of_ne hle hne
        exact_mod_cast this
      exact absurd hterm (ne_of_gt (entTerm_pos_of_lt (mem_countsOf_pos rows kv hkv) hlt))
    rcases hcs : countsOf rows with _ | ⟨kv1, rest⟩
    · exact absurd hcs (countsOf_ne_nil h)
    · rcases hrest : rest with _ | ⟨kv2, rest2⟩
      · rfl
      · exfalso
        have hsum := sum_countsOf rows
        rw [hcs, hrest] at hsum
        simp only [List.map_cons, List.sum_cons] at hsum
        have h1 : kv1.2 = rows.length := hall kv1 (by rw [hcs]; exact List.mem_cons_self _ _)
        have h2 : kv2.2 = rows.length := hall kv2 (by
          rw [hcs, hrest]
          exact List.mem_cons_of_mem _ (List.mem_cons_self _ _))
        omega
  · intro hone
    rcases hcs : countsOf rows with _ | ⟨kv1, rest⟩
    · exact absurd hcs (countsOf_ne_nil h)
    · have hrest : rest = [] := by
        rw [hcs] at hone
        simpa using hone
      subst hrest
      have hsum := sum_countsOf rows
      rw [hcs] at hsum
      simp only [List.map_cons, List.map_nil, List.sum_cons, List.sum_nil] at hsum
      rw [get_entropy_eq_sum h, hcs]
      simp only [List.map_cons, List.map_nil, List.sum_cons, List.sum_nil]
      rw [entTerm_of_eq (by exact_mod_cast hlen) (by exact_mod_cast hsum)]
      ring

theorem counts_length_one_iff {rows : Rows} (h : rows ≠ []) :
    (countsOf rows).length = 1 ↔
      ∀ r ∈ rows, ∀ r' ∈ rows, lastLabel r = lastLabel r' := by
  constructor
  · intro hone r hr r' hr'
    rcases hcs : countsOf rows with _ | ⟨kv1, rest⟩
    · exact absurd hcs (countsOf_ne_nil h)
    · have hrest : rest = [] := by
        rw [hcs] at hone
        simpa using hone
      subst hrest
      have hk : ∀ s ∈ rows, lastLabel s = kv1.1 := by
        intro s hs
        have hmem : lastLabel s ∈ (countsOf rows).map Prod.fst :=
          (mem_keys_countsOf rows (lastLabel s)).2 ⟨s, hs, rfl⟩
        rw [hcs] at hmem
        simpa using hmem
      rw [hk r hr, hk r' hr']
  · intro hall
    rcases hrows : rows with _ | ⟨r0, rrest⟩
    · exact absurd hrows h
    rw [← hrows]
    have hkeys : ∀ k ∈ (countsOf rows).map Prod.fst, k = lastLabel r0 := by
      intro k hk
      obtain ⟨r, hr, hlr⟩ := (mem_keys_countsOf rows k).1 hk
      rw [← hlr]
      exact hall r hr r0 (by rw [hrows]; exact List.mem_cons_self _ _)
    have hnd := keys_countsOf_nodup rows
    have hne : countsOf rows ≠ [] := countsOf_ne_nil h
    rcases hcs : countsOf rows with _ | ⟨kv1, rest⟩
    · exact absurd hcs hne
    · rcases hrest : rest with _ | ⟨kv2, rest2⟩
      · rfl
      · exfalso
        rw [hcs, hrest] at hnd hkeys
        have e1 : kv1.1 = lastLabel r0 := hkeys kv1.1 (by simp)
        have e2 : kv2.1 = lastLabel r0 := hkeys kv2.1 (by simp)
        simp only [List.map_cons, List.nodup_cons, List.mem_cons] at hnd
        exact hnd.1 (Or.inl (e1.trans e2.symm))

theorem float_zero_eq : (0.0 : ℝ) = 0 := by norm_num

theorem find_best_split_guard {rows : Rows}
    (h : rows = [] ∨ (rows.headD []).length ≤ 1) :
    find_best_split rows = (-1, 0.0) := by
  unfold find_best_split
  rw [if_pos h]

theorem find_best_split_eq_fold {rows : Rows}
    (h : ¬ (rows = [] ∨ (rows.headD []).length ≤ 1)) :
    find_best_split rows = fbsFold rows ((rows.headD []).length - 1) := by
  unfold find_best_split fbsFold
  rw [if_neg h]

theorem fbsFold_succ (rows : Rows) (k : Nat) :
    fbsFold rows (k + 1) =
      if gainAt rows k > (fbsFold rows k).2 then ((k : Int), gainAt rows k)
      else fbsFold rows k := by
  unfold fbsFold
  rw [List.range_succ, List.foldl_append, List.foldl_cons, List.foldl_nil]
  rfl

theorem fbsFold_spec (rows : Rows) (k : Nat) :
    (fbsFold rows k = (-1, 0.0) ∧ ∀ i < k, gainAt rows i ≤ 0) ∨
      (∃ j < k, fbsFold rows k = ((j : Int), gainAt rows j) ∧ 0 < gainAt rows j ∧
        (∀ i < k, gainAt rows i ≤ gainAt rows j) ∧
        ∀ i < j, gainAt rows i < gainAt rows j) := by
  induction k with
  | zero =>
    left
    exact ⟨rfl, fun i hi => absurd hi (Nat.not_lt_zero i)⟩
  | succ k ih =>
    rw [fbsFold_succ]
    rcases ih with ⟨hst, hall⟩ | ⟨j, hj, hst, hpos, hle, hlt⟩
    · rw [hst]
      by_cases hgk : 0 < gainAt rows k
      · rw [if_pos (show gainAt rows k > ((-1 : Int), (0.0 : ℝ)).2 from by
            simpa [float_zero_eq] using hgk)]
        right
        refine ⟨k, Nat.lt_succ_self k, rfl, hgk, ?_, ?_⟩
        · intro i hi
          rcases Nat.lt_succ_iff_lt_or_eq.1 hi with h1 | h2
          · exact le_of_lt (lt_of_le_of_lt (hall i h1) hgk)
          · rw [h2]
        · intro i hi
          exact lt_of_le_of_lt (hall i hi) hgk
      · rw [if_neg (show ¬ gainAt rows k > ((-1 : Int), (0.0 : ℝ)).2 from by
            simpa [float_zero_eq] using hgk)]
        left
        refine ⟨rfl, ?_⟩
        intro i hi
        rcases Nat.lt_succ_iff_lt_or_eq.1 hi with h1 | h2
        · exact hall i h1
        · rw [h2]
          exact le_of_not_lt hgk
    · rw [hst]
      by_cases hgt : gainAt rows k > gainAt rows j
      · rw [if_pos hgt]
        right
        refine ⟨k, Nat.lt_succ_self k, rfl, lt_trans hpos hgt, ?_, ?_⟩
        · intro i hi
          rcases Nat.lt_succ_iff_lt_or_eq.1 hi with h1 | h2
          · exact le_of_lt (lt_of_le_of_lt (hle i h1) hgt)
          · rw [h2]
        · intro i hi
          exact lt_of_le_of_lt (hle i hi) hgt
      · rw [if_neg hgt]
        right
        refine ⟨j, Nat.lt_succ_of_lt hj, rfl, hpos, ?_, hlt⟩
        intro i hi
        rcases Nat.lt_succ_iff_lt_or_eq.1 hi with h1 | h2
        · exact hle i h1
        · rw [h2]
          exact le_of_not_lt hgt

theorem find_best_split_gain_ne_zero {rows : Rows}
    (h : (find_best_split rows).2 ≠ 0) :
    ¬ (rows = [] ∨ (rows.headD []).length ≤ 1) ∧
      ∃ j < (rows.headD []).length - 1,
        find_best_split rows = ((j : Int), gainAt rows j) ∧ 0 < gainAt rows j := by
  by_cases hg : rows = [] ∨ (rows.headD []).length ≤ 1
  · rw [find_best_split_guard hg] at h
    exact absurd (by norm_num : ((-1 : Int), (0.0 : ℝ)).2 = 0) h
  · refine ⟨hg, ?_⟩
    rw [find_best_split_eq_fold hg] at h ⊢
    rcases fbsFold_spec rows ((rows.headD []).length - 1) with ⟨hst, _⟩ |
      ⟨j, hj, hst, hpos, _, _⟩
    · rw [hst] at h
      exact absurd (by norm_num : ((-1 : Int), (0.0 : ℝ)).2 = 0) h
    · exact ⟨j, hj, hst, hpos⟩

theorem sizeRows_cons (r : Row) (rest : Rows) :
    sizeRows (r :: rest) = r.length + 1 + sizeRows rest := rfl

theorem sizeRows_le_of_sublist {s l : Rows} (h : List.Sublist s l) :
    sizeRows s ≤ sizeRows l := by
  induction h with
  | slnil => exact le_refl 0
  | cons r _ ih =>
    rw [sizeRows_cons]
    omega
  | cons₂ r _ ih =>
    rw [sizeRows_cons, sizeRows_cons]
    omega

theorem sizeRows_map_eraseIdx_le (l : Rows) (i : Nat) :
    sizeRows (l.map (fun r => r.eraseIdx i)) ≤ sizeRows l := by
  induction l with
  | nil => exact le_refl 0
  | cons r rest ih =>
    rw [List.map_cons, sizeRows_cons, sizeRows_cons]
    have := (List.eraseIdx_sublist r i).length_le
    omega

theorem sizeRows_group_lt {rows : Rows} {i : Nat} {v : String} {g : Rows}
    (hmem : (v, g) ∈ split_dataset rows i)
    (hi : i < (rows.headD []).length) :
    sizeRows g < sizeRows rows ∧ g ≠ [] := by
  obtain ⟨hfne, hg⟩ := mem_split_eq hmem
  constructor
  · cases rows with
    | nil =>
      simp [split_dataset] at hmem
    | cons r0 rest =>
      have hi0 : i < r0.length := by simpa using hi
      rw [hg, List.filter_cons]
      by_cases hp : (valAt r0 i == v) = true
      · rw [if_pos hp, List.map_cons, sizeRows_cons, sizeRows_cons]
        have h1 : (r0.eraseIdx i).length = r0.length - 1 :=
          List.length_eraseIdx_of_lt hi0
        have h2 : sizeRows ((rest.filter (fun x => valAt x i == v)).map
            (fun r => r.eraseIdx i)) ≤ sizeRows rest :=
          le_trans (sizeRows_map_eraseIdx_le _ i)
            (sizeRows_le_of_sublist (List.filter_sublist rest))
        omega
      · rw [if_neg hp, sizeRows_cons]
        have h2 : sizeRows ((rest.filter (fun x => valAt x i == v)).map
            (fun r => r.eraseIdx i)) ≤ sizeRows rest :=
          le_trans (sizeRows_map_eraseIdx_le _ i)
            (sizeRows_le_of_sublist (List.filter_sublist rest))
        omega
  · rw [hg]
    intro hcontra
    exact hfne (List.map_eq_nil_iff.1 hcontra)

theorem build_tree_succ (fuel : Nat) (rows : Rows) (headers : List String) :
    build_tree (fuel + 1) rows headers =
      if rows = [] then DTree.leaf none
      else if (countsOf rows).length = 1 then
        DTree.leaf (some ((countsOf rows).headD ("", 0)).1)
      else if (rows.headD []).length = 1 then
        DTree.leaf (some (majority (countsOf rows)))
      else if (find_best_split rows).2 = 0 then
        DTree.leaf (some (majority (countsOf rows)))
      else
        DTree.node ((headers.getD (find_best_split rows).1.toNat ""))
          ((split_dataset rows (find_best_split rows).1.toNat).map
            (fun p =>
              (p.1, build_tree fuel p.2
                (headers.eraseIdx (find_best_split rows).1.toNat)))) := rfl

theorem gain_index_lt_width {rows : Rows} (h : (find_best_split rows).2 ≠ 0) :
    (find_best_split rows).1.toNat < (rows.headD []).length - 1 := by
  obtain ⟨_, j, hj, hst, _⟩ := find_best_split_gain_ne_zero h
  rw [hst]
  simpa using hj

theorem build_tree_stable :
    ∀ fuel rows headers, sizeRows rows < fuel →
      build_tree fuel rows headers = build_tree (sizeRows rows + 1) rows headers := by
  intro fuel
  induction fuel using Nat.strong_induction_on with
  | _ fuel ih =>
    intro rows headers hlt
    cases fuel with
    | zero => omega
    | succ f =>
      rw [build_tree_succ, build_tree_succ]
      by_cases h1 : rows = []
      · rw [if_pos h1, if_pos h1]
      rw [if_neg h1, if_neg h1]
      by_cases h2 : (countsOf rows).length = 1
      · rw [if_pos h2, if_pos h2]
      rw [if_neg h2, if_neg h2]
      by_cases h3 : (rows.headD []).length = 1
      · rw [if_pos h3, if_pos h3]
      rw [if_neg h3, if_neg h3]
      by_cases h4 : (find_best_split rows).2 = 0
      · rw [if_pos h4, if_pos h4]
      rw [if_neg h4, if_neg h4]
      have hidx : (find_best_split rows).1.toNat < (rows.headD []).length :=
        lt_of_lt_of_le (gain_index_lt_width h4) (Nat.sub_le _ _)
      congr 1
      apply List.map_congr_left
      intro p hp
      have hdec := (sizeRows_group_lt
        (by rw [← Prod.mk.eta (p := p)] at hp; exact hp) hidx).1
      have e1 : build_tree f p.2 (headers.eraseIdx (find_best_split rows).1.toNat) =
          build_tree (sizeRows p.2 + 1) p.2
            (headers.eraseIdx (find_best_split rows).1.toNat) := by
        apply ih f (Nat.lt_succ_self f)
        omega
      have e2 : build_tree (sizeRows rows) p.2
            (headers.eraseIdx (find_best_split rows).1.toNat) =
          build_tree (sizeRows p.2 + 1) p.2
            (headers.eraseIdx (find_best_split rows).1.toNat) := by
        apply ih (sizeRows rows) hlt
        omega
      rw [e1, e2]

theorem build_tree_eq_build {fuel : Nat} {rows : Rows} (headers : List String)
    (h : sizeRows rows < fuel) : build_tree fuel rows headers = build rows headers :=
  build_tree_stable fuel rows headers h

theorem classify_leaf (observation : Obs) (v : Option String) :
    classify observation (DTree.leaf v) = v := by
  simp [classify]

theorem classify_node_missing {observation : Obs} {feature : String}
    {children : List (String × DTree)}
    (h : lookupStr observation feature = none) :
    classify observation (DTree.node feature children) = some "Unknown" := by
  rw [classify, h]

theorem classify_node_unseen {observation : Obs} {feature value : String}
    {children : List (String × DTree)}
    (h : lookupStr observation feature = some value)
    (hc : lookupStr children value = none) :
    classify observation (DTree.node feature children) = some "Unknown" := by
  rw [classify]
  split
  · rfl
  · rename_i next heq
    rw [h] at heq
    injection heq with heq2
    subst heq2
    split
    · rfl
    · rename_i n2 heq3
      rw [hc] at heq3
      exact Option.noConfusion heq3

theorem classify_node_child {observation : Obs} {feature value : String}
    {children : List (String × DTree)} {next : DTree}
    (h : lookupStr observation feature = some value)
    (hc : lookupStr children value = some next) :
    classify observation (DTree.node feature children) = classify observation next := by
  rw [classify]
  split
  · rename_i heq
    rw [h] at heq
    exact Option.noConfusion heq
  · rename_i next1 heq
    rw [h] at heq
    injection heq with heq2
    subst heq2
    split
    · rename_i heq3
      rw [hc] at heq3
      exact Option.noConfusion heq3
    · rename_i n2 heq3
      rw [hc] at heq3
      injection heq3 with heq4
      subst heq4
      rfl

theorem lookupStr_height_le {cs : List (String × DTree)} {v : String} {t : DTree}
    (h : lookupStr cs v = some t) : heightT t ≤ heightL cs := by
  induction cs with
  | nil => simp [lookupStr] at h
  | cons p rest ih =>
    obtain ⟨k, a⟩ := p
    simp only [lookupStr] at h
    by_cases hk : k = v
    · rw [if_pos hk] at h
      cases h
      exact le_max_left _ _
    · rw [if_neg hk] at h
      exact le_trans (ih h) (le_max_right _ _)

theorem classifyFuel_stable :
    ∀ (fuel : Nat) (t : DTree) (observation : Obs), heightT t < fuel →
      classifyFuel observation fuel t = classify observation t := by
  intro fuel
  induction fuel with
  | zero =>
    intro t observation h
    exact absurd h (Nat.not_lt_zero _)
  | succ f ih =>
    intro t observation h
    cases t with
    | leaf v =>
      rw [classify_leaf]
      rfl
    | node feature children =>
      cases hf : lookupStr observation feature with
      | none => rw [classify_node_missing hf]; simp [classifyFuel, hf]
      | some value =>
        cases hc : lookupStr children value with
        | none => rw [classify_node_unseen hf hc]; simp [classifyFuel, hf, hc]
        | some next =>
          rw [classify_node_child hf hc]
          simp only [classifyFuel, hf, hc]
          apply ih
          have h1 : heightT next ≤ heightL children := lookupStr_height_le hc
          have h2 : heightT (DTree.node feature children) = heightL children + 1 := rfl
          omega

theorem split_dataset_ne_nil {rows : Rows} (h : rows ≠ []) (i : Nat) :
    split_dataset rows i ≠ [] := by
  cases rows with
  | nil => exact absurd rfl h
  | cons r rest =>
    intro hc
    have hm := (mem_keys_split (r :: rest) i (valAt r i)).2 ⟨r, List.mem_cons_self _ _, rfl⟩
    rw [hc] at hm
    simp at hm

theorem build_tree_ok :
    ∀ fuel rows headers, sizeRows rows < fuel → rows ≠ [] →
      build_tree fuel rows headers ≠ DTree.leaf none ∧
        NodeOk (build_tree fuel rows headers) := by
  intro fuel
  induction fuel using Nat.strong_induction_on with
  | _ fuel ih =>
    intro rows headers hlt hne
    cases fuel with
    | zero => omega
    | succ f =>
      rw [build_tree_succ]
      rw [if_neg hne]
      by_cases h2 : (countsOf rows).length = 1
      · rw [if_pos h2]
        exact ⟨by simp, NodeOk.leaf _⟩
      rw [if_neg h2]
      by_cases h3 : (rows.headD []).length = 1
      · rw [if_pos h3]
        exact ⟨by simp, NodeOk.leaf _⟩
      rw [if_neg h3]
      by_cases h4 : (find_best_split rows).2 = 0
      · rw [if_pos h4]
        exact ⟨by simp, NodeOk.leaf _⟩
      rw [if_neg h4]
      have hidx : (find_best_split rows).1.toNat < (rows.headD []).length :=
        lt_of_lt_of_le (gain_index_lt_width h4) (Nat.sub_le _ _)
      constructor
      · simp
      · refine NodeOk.node _ _ ?_ ?_ ?_
        · intro hc
          exact split_dataset_ne_nil hne _ (List.map_eq_nil_iff.1 hc)
        · intro p hp
          obtain ⟨q, hq, rfl⟩ := List.mem_map.1 hp
          have hdec := sizeRows_group_lt
            (by rw [← Prod.mk.eta (p := q)] at hq; exact hq) hidx
          exact (ih f (Nat.lt_succ_self f) q.2 _ (by omega) hdec.2).1
        · intro p hp
          obtain ⟨q, hq, rfl⟩ := List.mem_map.1 hp
          have hdec := sizeRows_group_lt
            (by rw [← Prod.mk.eta (p := q)] at hq; exact hq) hidx
          exact (ih f (Nat.lt_succ_self f) q.2 _ (by omega) hdec.2).2

theorem majority_foldl_spec :
    ∀ (rest : List (String × Nat)) (c : String × Nat),
      ∃ j < (c :: rest).length,
        (c :: rest).getD j ("", 0) =
          rest.foldl (fun best kv => if kv.2 > best.2 then kv else best) c ∧
        (∀ kv ∈ c :: rest,
          kv.2 ≤ (rest.foldl (fun best kv => if kv.2 > best.2 then kv else best) c).2) ∧
        ∀ m < j, ((c :: rest).getD m ("", 0)).2 <
          (rest.foldl (fun best kv => if kv.2 > best.2 then kv else best) c).2 := by
  intro rest
  induction rest with
  | nil =>
    intro c
    refine ⟨0, by simp, rfl, ?_, fun m hm => absurd hm (Nat.not_lt_zero m)⟩
    intro kv hkv
    rw [List.mem_singleton] at hkv
    subst hkv
    exact le_refl _
  | cons kv rest ih =>
    intro c
    by_cases hkv : kv.2 > c.2
    · have hstep : (kv :: rest).foldl (fun best kv => if kv.2 > best.2 then kv else best) c
          = rest.foldl (fun best kv => if kv.2 > best.2 then kv else best) kv := by
        rw [List.foldl_cons, if_pos hkv]
      rw [hstep]
      obtain ⟨j', hj', hget, hbound, hstrict⟩ := ih kv
      refine ⟨j' + 1, by simpa using hj', by simpa using hget, ?_, ?_⟩
      · intro kv' hkv'
        rcases List.mem_cons.1 hkv' with h1 | h1
        · subst h1
          exact le_of_lt (lt_of_lt_of_le hkv (hbound kv (List.mem_cons_self _ _)))
        · exact hbound kv' h1
      · intro m hm
        cases m with
        | zero =>
          rw [List.getD_cons_zero]
          exact lt_of_lt_of_le hkv (hbound kv (List.mem_cons_self _ _))
        | succ m' =>
          rw [List.getD_cons_succ]
          exact hstrict m' (by omega)
    · have hstep : (kv :: rest).foldl (fun best kv => if kv.2 > best.2 then kv else best) c
          = rest.foldl (fun best kv => if kv.2 > best.2 then kv else best) c := by
        rw [List.foldl_cons, if_neg hkv]
      rw [hstep]
      obtain ⟨j', hj', hget, hbound, hstrict⟩ := ih c
      cases j' with
      | zero =>
        rw [List.getD_cons_zero] at hget
        refine ⟨0, by simp, by rw [List.getD_cons_zero]; exact hget, ?_,
          fun m hm => absurd hm (Nat.not_lt_zero m)⟩
        intro kv' hkv'
        rcases List.mem_cons.1 hkv' with h1 | h1
        · rw [h1]
          exact hbound c (List.mem_cons_self _ _)
        · rcases List.mem_cons.1 h1 with h2 | h2
          · rw [h2, ← hget]
            exact le_of_not_lt hkv
          · exact hbound kv' (List.mem_cons_of_mem _ h2)
      | succ m' =>
        rw [List.getD_cons_succ] at hget
        refine ⟨m' + 2, by simpa using hj', by
          rw [List.getD_cons_succ, List.getD_cons_succ]; exact hget, ?_, ?_⟩
        · intro kv' hkv'
          rcases List.mem_cons.1 hkv' with h1 | h1
          · rw [h1]
            exact hbound c (List.mem_cons_self _ _)
          · rcases List.mem_cons.1 h1 with h2 | h2
            · rw [h2]
              exact le_trans (le_of_not_lt hkv) (hbound c (List.mem_cons_self _ _))
            · exact hbound kv' (List.mem_cons_of_mem _ h2)
        · intro m hm
          cases m with
          | zero =>
            rw [List.getD_cons_zero]
            have := hstrict 0 (by omega)
            rw [List.getD_cons_zero] at this
            exact this
          | succ m'' =>
            cases m'' with
            | zero =>
              rw [List.getD_cons_succ, List.getD_cons_zero]
              have h0 := hstrict 0 (by omega)
              rw [List.getD_cons_zero] at h0
              exact lt_of_le_of_lt (le_of_not_lt hkv) h0
            | succ m3 =>
              rw [List.getD_cons_succ, List.getD_cons_succ]
              have hs := hstrict (m3 + 1) (by omega)
              rw [List.getD_cons_succ] at hs
              exact hs

theorem majority_spec {counts : List (String × Nat)} (hne : counts ≠ []) :
    ∃ j < counts.length, ∃ c : Nat,
      counts.getD j ("", 0) = (majority counts, c) ∧
      (∀ kv ∈ counts, kv.2 ≤ c) ∧
      ∀ m < j, (counts.getD m ("", 0)).2 < c := by
  cases counts with
  | nil => exact absurd rfl hne
  | cons c0 rest =>
    obtain ⟨j, hj, hget, hbound, hstrict⟩ := majority_foldl_spec rest c0
    refine ⟨j, hj, (rest.foldl (fun best kv => if kv.2 > best.2 then kv else best) c0).2,
      ?_, hbound, hstrict⟩
    rw [hget]
    rfl

/-- Claim C2: `entropy(rows)` is always nonnegative, is `0.0` on the empty
collection, and vanishes exactly when all rows share one label (the same
last element). -/
theorem claim_C2 (rows : Rows) :
    0 ≤ get_entropy rows ∧ get_entropy ([] : Rows) = 0 ∧
      (get_entropy rows = 0 ↔ ∀ r ∈ rows, ∀ r' ∈ rows, lastLabel r = lastLabel r') := by
  refine ⟨get_entropy_nonneg rows, by norm_num [get_entropy], ?_⟩
  by_cases h : rows = []
  · subst h
    refine iff_of_true (by norm_num [get_entropy]) ?_
    intro r hr
    exact absurd hr (List.not_mem_nil r)
  · rw [get_entropy_zero_iff h, counts_length_one_iff h]

/-- Claim C2 witness at a concrete input: a two-label dataset. -/
theorem claim_C2_wit :
    0 ≤ get_entropy [["A"], ["B"]] ∧ get_entropy ([] : Rows) = 0 ∧
      (get_entropy [["A"], ["B"]] = 0 ↔
        ∀ r ∈ [[("A" : String)], ["B"]], ∀ r' ∈ [[("A" : String)], ["B"]],
          lastLabel r = lastLabel r') :=
  claim_C2 [["A"], ["B"]]

/-- Claim C3: for a valid feature index, `split_dataset` partitions the rows
(group sizes sum to the input size), each output row is its input row with
exactly the split column removed (one fewer column, relative order kept),
and the group keys are exactly the distinct values of that column. -/
theorem claim_C3 (rows : Rows) (i : Nat) (hvalid : ∀ r ∈ rows, i < r.length) :
    (((split_dataset rows i).map (fun p => p.2.length)).sum = rows.length) ∧
    (∀ p ∈ split_dataset rows i, ∀ r' ∈ p.2, ∃ r ∈ rows,
        valAt r i = p.1 ∧ r' = r.take i ++ r.drop (i + 1) ∧ r'.length + 1 = r.length) ∧
    (∀ v, v ∈ (split_dataset rows i).map Prod.fst ↔ ∃ r ∈ rows, valAt r i = v) := by
  refine ⟨sum_sizes_split rows i, ?_, fun v => mem_keys_split rows i v⟩
  intro p hp r' hr'
  obtain ⟨hfne, hg⟩ := mem_split_eq (by rw [← Prod.mk.eta (p := p)] at hp; exact hp)
  rw [hg] at hr'
  obtain ⟨r, hrf, rfl⟩ := List.mem_map.1 hr'
  have hrmem := List.mem_filter.1 hrf
  have hval : valAt r i = p.1 := by
    have := hrmem.2
    simpa [beq_iff_eq] using this
  have hlen : i < r.length := hvalid r hrmem.1
  refine ⟨r, hrmem.1, hval, List.eraseIdx_eq_take_drop_succ r i, ?_⟩
  rw [List.length_eraseIdx_of_lt hlen]
  omega

/-- Claim C3 witness at a concrete input. -/
theorem claim_C3_wit :
    ((((split_dataset [["a", "X"], ["b", "Y"]] 0).map (fun p => p.2.length)).sum =
        ([["a", "X"], ["b", "Y"]] : Rows).length) ∧
    (∀ p ∈ split_dataset [["a", "X"], ["b", "Y"]] 0, ∀ r' ∈ p.2,
      ∃ r ∈ ([["a", "X"], ["b", "Y"]] : Rows),
        valAt r 0 = p.1 ∧ r' = r.take 0 ++ r.drop 1 ∧ r'.length + 1 = r.length) ∧
    (∀ v, v ∈ (split_dataset [["a", "X"], ["b", "Y"]] 0).map Prod.fst ↔
      ∃ r ∈ ([["a", "X"], ["b", "Y"]] : Rows), valAt r 0 = v)) :=
  claim_C3 [["a", "X"], ["b", "Y"]] 0 (by decide)

/-- Claim C4: `find_best_split` returns the sentinel `(-1, 0.0)` for no rows,
a single column, or when no column has positive gain; otherwise it returns
the column of strictly greatest gain, earliest index winning ties (a gain
merely equal to the current best does not replace it). -/
theorem claim_C4 (rows : Rows) :
    ((rows = [] ∨ (rows.headD []).length ≤ 1) → find_best_split rows = (-1, 0)) ∧
    (¬ (rows = [] ∨ (rows.headD []).length ≤ 1) →
      ((∀ i < (rows.headD []).length - 1, gainAt rows i ≤ 0) →
          find_best_split rows = (-1, 0)) ∧
      ((∃ i < (rows.headD []).length - 1, 0 < gainAt rows i) →
        ∃ j < (rows.headD []).length - 1,
          find_best_split rows = ((j : Int), gainAt rows j) ∧ 0 < gainAt rows j ∧
          (∀ i < (rows.headD []).length - 1, gainAt rows i ≤ gainAt rows j) ∧
          ∀ i < j, gainAt rows i < gainAt rows j)) := by
  constructor
  · intro h
    rw [find_best_split_guard h, float_zero_eq]
  · intro h
    constructor
    · intro hall
      rw [find_best_split_eq_fold h]
      rcases fbsFold_spec rows ((rows.headD []).length - 1) with ⟨hst, _⟩ |
        ⟨j, hj, _, hpos, _, _⟩
      · rw [hst, float_zero_eq]
      · exact absurd hpos (not_lt_of_le (hall j hj))
    · rintro ⟨i, hi, hpos⟩
      rw [find_best_split_eq_fold h]
      rcases fbsFold_spec rows ((rows.headD []).length - 1) with ⟨_, hall⟩ |
        ⟨j, hj, hst, hjpos, hle, hlt⟩
      · exact absurd hpos (not_lt_of_le (hall i hi))
      · exact ⟨j, hj, hst, hjpos, hle, hlt⟩

/-- Claim C4 witness: the sentinel case on the empty row collection. -/
theorem claim_C4_wit : find_best_split [] = (-1, 0) :=
  (claim_C4 []).1 (Or.inl rfl)

/-- Claim C6: `classify` returns a leaf verbatim; on a decision node it
returns the sentinel `"Unknown"` exactly when the feature is absent from the
observation or the observed value is not among the child keys (exact,
case-sensitive string matching), and otherwise recurses into the matching
child. -/
theorem claim_C6 (observation : Obs) :
    (∀ v, classify observation (DTree.leaf v) = v) ∧
    (∀ feature children,
      (lookupStr observation feature = none →
        classify observation (DTree.node feature children) = some "Unknown") ∧
      (∀ value, lookupStr observation feature = some value →
        lookupStr children value = none →
        classify observation (DTree.node feature children) = some "Unknown") ∧
      (∀ value next, lookupStr observation feature = some value →
        lookupStr children value = some next →
        classify observation (DTree.node feature children) =
          classify observation next)) :=
  ⟨fun v => classify_leaf observation v, fun _ children =>
    ⟨fun h => classify_node_missing h,
     fun _ h hc => classify_node_unseen h hc,
     fun _ _ h hc => classify_node_child h hc⟩⟩

/-- Claim C6 witness: a leaf and a missing-feature node at concrete inputs. -/
theorem claim_C6_wit :
    classify [] (DTree.leaf (some "A")) = some "A" ∧
      classify [] (DTree.node "f" [("x", DTree.leaf (some "B"))]) = some "Unknown" :=
  ⟨(claim_C6 []).1 (some "A"),
   ((claim_C6 []).2 "f" [("x", DTree.leaf (some "B"))]).1 rfl⟩

/-- Claim C7: a tree built from a non-empty dataset satisfies the structural
invariant: every decision node has a non-empty children map and none of its
children is the empty/absent tree. -/
theorem claim_C7 (rows : Rows) (headers : List String) (h : rows ≠ []) :
    NodeOk (build rows headers) :=
  (build_tree_ok (sizeRows rows + 1) rows headers (Nat.lt_succ_self _) h).2

/-- Claim C7 witness at a concrete non-empty dataset. -/
theorem claim_C7_wit : NodeOk (build [["A"]] ["t"]) :=
  claim_C7 [["A"]] ["t"] (by simp)

/-- Claim C9: `build` terminates — any fuel beyond the strictly decreasing
measure gives the same tree as `build` — and `classify` terminates — it
agrees with a step-bounded walk whenever the bound exceeds the tree height. -/
theorem claim_C9 :
    (∀ rows headers fuel, sizeRows rows < fuel →
      build_tree fuel rows headers = build rows headers) ∧
    (∀ observation t fuel, heightT t < fuel →
      classifyFuel observation fuel t = classify observation t) :=
  ⟨fun _ headers _ h => build_tree_eq_build headers h,
   fun observation t fuel h => classifyFuel_stable fuel t observation h⟩

/-- Claim C9 witness at concrete inputs. -/
theorem claim_C9_wit :
    build_tree 1 [] ["t"] = build [] ["t"] ∧
      classifyFuel [] 1 (DTree.leaf none) = classify [] (DTree.leaf none) :=
  ⟨claim_C9.1 [] ["t"] 1 (by decide), claim_C9.2 [] (DTree.leaf none) 1 (by decide)⟩

/-- Claim C10: building from an empty dataset yields the absent tree `None`,
and classifying any observation against it returns `None` itself (a "leaf"),
not the `"Unknown"` sentinel and not an error. -/
theorem claim_C10 (headers : List String) (observation : Obs) :
    build [] headers = DTree.leaf none ∧
      classify observation (build [] headers) = none := by
  have hb : build [] headers = DTree.leaf none := rfl
  exact ⟨hb, by rw [hb, classify_leaf]⟩

/-- Claim C10 witness at concrete inputs. -/
theorem claim_C10_wit :
    build [] ["outlook", "play"] = DTree.leaf none ∧
      classify [("outlook", "Sunny")] (build [] ["outlook", "play"]) = none :=
  claim_C10 ["outlook", "play"] [("outlook", "Sunny")]

/-- Claim C5: on a non-empty dataset whose rows do not all share one label,
`build` returns the majority label exactly in the two cases "row width is 1"
and "best gain is 0"; and the majority label is the one of highest count,
ties resolved to the label first encountered while tallying in row order. -/
theorem claim_C5 (rows : Rows) (headers : List String)
    (hne : rows ≠ [])
    (himp : ¬ ∀ r ∈ rows, ∀ r' ∈ rows, lastLabel r = lastLabel r') :
    (build rows headers = DTree.leaf (some (majority (countsOf rows))) ↔
      ((rows.headD []).length = 1 ∨ (find_best_split rows).2 = 0)) ∧
    (∃ j < (countsOf rows).length, ∃ c : Nat,
      (countsOf rows).getD j ("", 0) = (majority (countsOf rows), c) ∧
      (∀ kv ∈ countsOf rows, kv.2 ≤ c) ∧
      ∀ m < j, ((countsOf rows).getD m ("", 0)).2 < c) := by
  have h2 : (countsOf rows).length ≠ 1 := by
    intro hc
    exact himp ((counts_length_one_iff hne).1 hc)
  refine ⟨?_, majority_spec (countsOf_ne_nil hne)⟩
  have hb : build rows headers = build_tree (sizeRows rows + 1) rows headers := rfl
  rw [hb, build_tree_succ, if_neg hne, if_neg h2]
  by_cases h3 : (rows.headD []).length = 1
  · rw [if_pos h3]
    exact iff_of_true rfl (Or.inl h3)
  · rw [if_neg h3]
    by_cases h4 : (find_best_split rows).2 = 0
    · rw [if_pos h4]
      exact iff_of_true rfl (Or.inr h4)
    · rw [if_neg h4]
      exact iff_of_false (by simp) (fun hc => hc.elim h3 h4)

/-- Claim C5 witness at a concrete label-only impure dataset. -/
theorem claim_C5_wit :
    (build [["A"], ["B"]] ["t"] =
        DTree.leaf (some (majority (countsOf [["A"], ["B"]]))) ↔
      ((([["A"], ["B"]] : Rows).headD []).length = 1 ∨
        (find_best_split [["A"], ["B"]]).2 = 0)) ∧
    (∃ j < (countsOf [["A"], ["B"]]).length, ∃ c : Nat,
      (countsOf [["A"], ["B"]]).getD j ("", 0) =
        (majority (countsOf [["A"], ["B"]]), c) ∧
      (∀ kv ∈ countsOf [["A"], ["B"]], kv.2 ≤ c) ∧
      ∀ m < j, ((countsOf [["A"], ["B"]]).getD m ("", 0)).2 < c) :=
  claim_C5 [["A"], ["B"]] ["t"] (by simp) (by decide)

theorem foldlM_option_eq {α β : Type} (f : β → α → Option β) (g : β → α → β) :
    ∀ (l : List α) (b : β), (∀ a ∈ l, ∀ x, f x a = some (g x a)) →
      List.foldlM f b l = some (List.foldl g b l) := by
  intro l
  induction l with
  | nil => intro b _; rfl
  | cons a rest ih =>
    intro b h
    rw [List.foldlM_cons, h a (List.mem_cons_self _ _) b]
    rw [List.foldl_cons]
    have hbind : (some (g b a) >>= fun b' => List.foldlM f b' rest) =
        List.foldlM f (g b a) rest := by
      simp
    rw [hbind]
    exact ih (g b a) (fun a ha x => h a (List.mem_cons_of_mem _ ha) x)

theorem mapM_option_eq {α β : Type} (f : α → Option β) (g : α → β) :
    ∀ (l : List α), (∀ a ∈ l, f a = some (g a)) →
      List.mapM f l = some (List.map g l) := by
  intro l
  induction l with
  | nil => intro _; rfl
  | cons a rest ih =>
    intro h
    rw [List.mapM_cons, h a (List.mem_cons_self _ _),
      ih (fun a ha => h a (List.mem_cons_of_mem _ ha))]
    simp

theorem lastLabelE_eq {row : Row} (h : row ≠ []) :
    lastLabelE row = some (lastLabel row) := by
  unfold lastLabelE lastLabel
  rw [List.getLastD_eq_getLast?]
  rw [List.getLast?_eq_getLast row h]
  rfl

theorem valAtE_eq {row : Row} {i : Nat} (h : i < row.length) :
    valAtE row i = some (valAt row i) := by
  unfold valAtE valAt
  rw [List.getD_eq_getElem?_getD, List.get?_eq_getElem?]
  cases hx : row[i]? with
  | none =>
    rw [List.getElem?_eq_none_iff] at hx
    omega
  | some x => rfl

theorem countsOfE_eq {rows : Rows} (h : ∀ r ∈ rows, r ≠ []) :
    countsOfE rows = some (countsOf rows) := by
  unfold countsOfE countsOf
  apply foldlM_option_eq
  intro r hr x
  rw [lastLabelE_eq (h r hr)]
  rfl

theorem split_datasetE_eq {rows : Rows} {i : Nat} (h : ∀ r ∈ rows, i < r.length) :
    split_datasetE rows i = some (split_dataset rows i) := by
  unfold split_datasetE split_dataset
  apply foldlM_option_eq
  intro r hr x
  rw [valAtE_eq (h r hr)]
  rfl

theorem get_entropyE_eq {rows : Rows} (h : ∀ r ∈ rows, r ≠ []) :
    get_entropyE rows = some (get_entropy rows) := by
  unfold get_entropyE get_entropy
  by_cases hn : rows = []
  · rw [if_pos hn, if_pos hn]
  · rw [if_neg hn, if_neg hn, countsOfE_eq h]
    rfl

theorem majorityE_eq {counts : List (String × Nat)} (h : counts ≠ []) :
    majorityE counts = some (majority counts) := by
  cases counts with
  | nil => exact absurd rfl h
  | cons c rest => rfl

theorem mem_group_length {rows : Rows} {i : Nat} {v : String} {g : Rows} {w : Nat}
    (hmem : (v, g) ∈ split_dataset rows i) (hw : ∀ r ∈ rows, r.length = w)
    (hi : i < w) : ∀ r' ∈ g, r'.length = w - 1 := by
  obtain ⟨_, hg⟩ := mem_split_eq hmem
  rw [hg]
  intro r' hr'
  obtain ⟨r, hrf, rfl⟩ := List.mem_map.1 hr'
  have hr := (List.mem_filter.1 hrf).1
  rw [List.length_eraseIdx_of_lt (by rw [hw r hr]; exact hi), hw r hr]

theorem find_best_splitE_eq {rows : Rows} {w : Nat}
    (hw : ∀ r ∈ rows, r.length = w) :
    find_best_splitE rows = some (find_best_split rows) := by
  unfold find_best_splitE find_best_split
  by_cases hg : rows = [] ∨ (rows.headD []).length ≤ 1
  · rw [if_pos hg, if_pos hg]
  · rw [if_neg hg, if_neg hg]
    push_neg at hg
    obtain ⟨hne, hlen⟩ := hg
    have hwidth : (rows.headD []).length = w := by
      cases rows with
      | nil => exact absurd rfl hne
      | cons r rest => exact hw r (List.mem_cons_self _ _)
    have hw2 : 2 ≤ w := by omega
    have hnonempty : ∀ r ∈ rows, r ≠ [] := by
      intro r hr hc
      have := hw r hr
      rw [hc] at this
      simp at this
      omega
    rw [get_entropyE_eq hnonempty]
    show List.foldlM _ _ _ = _
    apply foldlM_option_eq
    intro i hi x
    have hiw : i < w := by
      rw [List.mem_range] at hi
      omega
    have hsplit : split_datasetE rows i = some (split_dataset rows i) :=
      split_datasetE_eq (fun r hr => by rw [hw r hr]; exact hiw)
    rw [hsplit]
    show (match (split_dataset rows i).foldlM
          (fun (acc : ℝ) (kv : String × Rows) =>
            (get_entropyE kv.2).map
              (fun h => acc + ((kv.2.length : ℝ) / (rows.length : ℝ)) * h))
          0.0 with
      | none => none
      | some weighted =>
        some (if get_entropy rows - weighted > x.2 then
          ((i : Int), get_entropy rows - weighted) else x)) = _
    have hinner : (split_dataset rows i).foldlM
        (fun acc kv =>
          (get_entropyE kv.2).map
            (fun h => acc + ((kv.2.length : ℝ) / (rows.length : ℝ)) * h))
        0.0 = some (weighted_entropy rows i) := by
      unfold weighted_entropy
      apply foldlM_option_eq
      intro kv hkv acc
      have hlen1 : ∀ r' ∈ kv.2, r'.length = w - 1 :=
        mem_group_length (by rw [← Prod.mk.eta (p := kv)] at hkv; exact hkv) hw hiw
      have hge : get_entropyE kv.2 = some (get_entropy kv.2) := by
        apply get_entropyE_eq
        intro r' hr' hc
        have := hlen1 r' hr'
        rw [hc] at this
        simp at this
        omega
      rw [hge]
      rfl
    rw [hinner]

theorem get?_eq_some_getD {α : Type} {l : List α} {i : Nat} (h : i < l.length) (d : α) :
    l.get? i = some (l.getD i d) := by
  rw [List.getD_eq_getElem?_getD, List.get?_eq_getElem?]
  cases hx : l[i]? with
  | none =>
    rw [List.getElem?_eq_none_iff] at hx
    omega
  | some x => rfl

theorem build_treeE_succ (fuel : Nat) (rows : Rows) (headers : List String) :
    build_treeE (fuel + 1) rows headers =
      (if rows = [] then some (DTree.leaf none)
      else
        match countsOfE rows with
        | none => none
        | some counts =>
          if counts.length = 1 then some (DTree.leaf (some (counts.headD ("", 0)).1))
          else if (rows.headD []).length = 1 then
            (majorityE counts).map (fun m => DTree.leaf (some m))
          else
            match find_best_splitE rows with
            | none => none
            | some best =>
              if best.2 = 0 then (majorityE counts).map (fun m => DTree.leaf (some m))
              else
                match headers.get? best.1.toNat with
                | none => none
                | some best_feature =>
                  match split_datasetE rows best.1.toNat with
                  | none => none
                  | some splits =>
                    (splits.mapM
                        (fun p =>
                          (build_treeE fuel p.2 (headers.eraseIdx best.1.toNat)).map
                            (fun t => (p.1, t)))).map
                      (fun children => DTree.node best_feature children)) := rfl

theorem build_treeE_eq :
    ∀ fuel rows headers, sizeRows rows < fuel →
      (∀ r ∈ rows, r.length = headers.length) → 1 ≤ headers.length →
      build_treeE fuel rows headers = some (build_tree fuel rows headers) := by
  intro fuel
  induction fuel using Nat.strong_induction_on with
  | _ fuel ih =>
    intro rows headers hlt hw hh
    cases fuel with
    | zero => omega
    | succ f =>
      rw [build_treeE_succ, build_tree_succ]
      by_cases h1 : rows = []
      · rw [if_pos h1, if_pos h1]
      rw [if_neg h1, if_neg h1]
      have hnonempty : ∀ r ∈ rows, r ≠ [] := by
        intro r hr hc
        have := hw r hr
        rw [hc] at this
        simp at this
        omega
      rw [countsOfE_eq hnonempty]
      show (if (countsOf rows).length = 1 then
          some (DTree.leaf (some ((countsOf rows).headD ("", 0)).1))
        else if (rows.headD []).length = 1 then
          (majorityE (countsOf rows)).map (fun m => DTree.leaf (some m))
        else
          match find_best_splitE rows with
          | none => none
          | some best =>
            if best.2 = 0 then
              (majorityE (countsOf rows)).map (fun m => DTree.leaf (some m))
            else
              match headers.get? best.1.toNat with
              | none => none
              | some best_feature =>
                match split_datasetE rows best.1.toNat with
                | none => none
                | some splits =>
                  (splits.mapM
                      (fun (p : String × Rows) =>
                        (build_treeE f p.2 (headers.eraseIdx best.1.toNat)).map
                          (fun t => (p.1, t)))).map
                    (fun children => DTree.node best_feature children)) = _
      have hcne : countsOf rows ≠ [] := countsOf_ne_nil h1
      by_cases h2 : (countsOf rows).length = 1
      · rw [if_pos h2, if_pos h2]
      rw [if_neg h2, if_neg h2]
      by_cases h3 : (rows.headD []).length = 1
      · rw [if_pos h3, if_pos h3, majorityE_eq hcne]
        rfl
      rw [if_neg h3, if_neg h3]
      rw [find_best_splitE_eq hw]
      show (if (find_best_split rows).2 = 0 then
          (majorityE (countsOf rows)).map (fun m => DTree.leaf (some m))
        else
          match headers.get? (find_best_split rows).1.toNat with
          | none => none
          | some best_feature =>
            match split_datasetE rows (find_best_split rows).1.toNat with
            | none => none
            | some splits =>
              (splits.mapM
                  (fun (p : String × Rows) =>
                    (build_treeE f p.2
                        (headers.eraseIdx (find_best_split rows).1.toNat)).map
                      (fun t => (p.1, t)))).map
                (fun children => DTree.node best_feature children)) = _
      by_cases h4 : (find_best_split rows).2 = 0
      · rw [if_pos h4, if_pos h4, majorityE_eq hcne]
        rfl
      rw [if_neg h4, if_neg h4]
      have hguard := (find_best_split_gain_ne_zero h4).1
      push_neg at hguard
      have hwidth : (rows.headD []).length = headers.length := by
        cases rows with
        | nil => exact absurd rfl h1
        | cons r rest => exact hw r (List.mem_cons_self _ _)
      have hjw := gain_index_lt_width h4
      have hidxh : (find_best_split rows).1.toNat < headers.length := by omega
      have hw2 : 2 ≤ headers.length := by omega
      rw [get?_eq_some_getD hidxh ""]
      have hsplitE : split_datasetE rows (find_best_split rows).1.toNat =
          some (split_dataset rows (find_best_split rows).1.toNat) := by
        apply split_datasetE_eq
        intro r hr
        rw [hw r hr]
        exact hidxh
      show (match split_datasetE rows (find_best_split rows).1.toNat with
        | none => none
        | some splits =>
          (splits.mapM
              (fun (p : String × Rows) =>
                (build_treeE f p.2
                    (headers.eraseIdx (find_best_split rows).1.toNat)).map
                  (fun t => (p.1, t)))).map
            (fun children =>
              DTree.node (headers.getD (find_best_split rows).1.toNat "") children)) = _
      rw [hsplitE]
      show ((split_dataset rows (find_best_split rows).1.toNat).mapM
          (fun (p : String × Rows) =>
            (build_treeE f p.2 (headers.eraseIdx (find_best_split rows).1.toNat)).map
              (fun t => (p.1, t)))).map
          (fun children =>
            DTree.node (headers.getD (find_best_split rows).1.toNat "") children) = _
      have hmapM : (split_dataset rows (find_best_split rows).1.toNat).mapM
          (fun p =>
            (build_treeE f p.2 (headers.eraseIdx (find_best_split rows).1.toNat)).map
              (fun t => (p.1, t))) =
          some ((split_dataset rows (find_best_split rows).1.toNat).map
            (fun p =>
              (p.1, build_tree f p.2
                (headers.eraseIdx (find_best_split rows).1.toNat)))) := by
        apply mapM_option_eq
        intro p hp
        have hq := hp
        rw [← Prod.mk.eta (p := p)] at hq
        have hdec := sizeRows_group_lt hq (by omega)
        have hglen := mem_group_length hq hw hidxh
        have hE : build_treeE f p.2 (headers.eraseIdx (find_best_split rows).1.toNat) =
            some (build_tree f p.2
              (headers.eraseIdx (find_best_split rows).1.toNat)) := by
          apply ih f (Nat.lt_succ_self f) p.2 _ (by omega)
          · intro r' hr'
            rw [hglen r' hr', List.length_eraseIdx_of_lt hidxh]
          · rw [List.length_eraseIdx_of_lt hidxh]
            omega
        rw [hE]
        rfl
      rw [hmapM]
      rfl

theorem classifyE_leaf (observation : Obs) (v : Option String) :
    classifyE observation (DTree.leaf v) = some v := by
  simp [classifyE]

theorem classifyE_missing {observation : Obs} {feature : String}
    {children : List (String × DTree)}
    (h : lookupStr observation feature = none) :
    classifyE observation (DTree.node feature children) = some (some "Unknown") := by
  rw [classifyE, h]

theorem classifyE_unseen {observation : Obs} {feature value : String}
    {children : List (String × DTree)}
    (h : lookupStr observation feature = some value)
    (hc : lookupStr children value = none) :
    classifyE observation (DTree.node feature children) = some (some "Unknown") := by
  rw [classifyE]
  split
  · rfl
  · rename_i next heq
    rw [h] at heq
    injection heq with heq2
    subst heq2
    split
    · rfl
    · rename_i n2 heq3
      rw [hc] at heq3
      exact Option.noConfusion heq3

theorem classifyE_child {observation : Obs} {feature value : String}
    {children : List (String × DTree)} {next : DTree}
    (h : lookupStr observation feature = some value)
    (hc : lookupStr children value = some next) :
    classifyE observation (DTree.node feature children) =
      classifyE observation next := by
  rw [classifyE]
  split
  · rename_i heq
    rw [h] at heq
    exact Option.noConfusion heq
  · rename_i next1 heq
    rw [h] at heq
    injection heq with heq2
    subst heq2
    split
    · rename_i heq3
      rw [hc] at heq3
      exact Option.noConfusion heq3
    · rename_i n2 heq3
      rw [hc] at heq3
      injection heq3 with heq4
      subst heq4
      rfl

theorem classifyE_eq (observation : Obs) :
    ∀ t, classifyE observation t = some (classify observation t) := by
  have key : ∀ (n : Nat) (t : DTree), heightT t < n →
      classifyE observation t = some (classify observation t) := by
    intro n
    induction n with
    | zero =>
      intro t h
      exact absurd h (Nat.not_lt_zero _)
    | succ m ih =>
      intro t h
      cases t with
      | leaf v => rw [classify_leaf, classifyE_leaf]
      | node feature children =>
        cases hf : lookupStr observation feature with
        | none => rw [classify_node_missing hf, classifyE_missing hf]
        | some value =>
          cases hc : lookupStr children value with
          | none => rw [classify_node_unseen hf hc, classifyE_unseen hf hc]
          | some next =>
            rw [classify_node_child hf hc, classifyE_child hf hc]
            apply ih
            have h1 := lookupStr_height_le hc
            have h2 : heightT (DTree.node feature children) = heightL children + 1 := rfl
            omega
  intro t
  exact key (heightT t + 1) t (Nat.lt_succ_self _)

/-- Claim C8: under the data-model invariants (all rows of width equal to the
headers width, which is at least 1), the checked copies of the five core
operations — which return `none` exactly where a Python access would raise —
always succeed and agree with the total embedding, so no exception is
reachable: every potentially-failing access is unreachable or guarded. -/
theorem claim_C8 (rows : Rows) (headers : List String)
    (hw : ∀ r ∈ rows, r.length = headers.length) (hh : 1 ≤ headers.length) :
    get_entropyE rows = some (get_entropy rows) ∧
    (∀ i < headers.length, split_datasetE rows i = some (split_dataset rows i)) ∧
    find_best_splitE rows = some (find_best_split rows) ∧
    build_treeE (sizeRows rows + 1) rows headers = some (build rows headers) ∧
    (∀ observation t, classifyE observation t = some (classify observation t)) := by
  have hnonempty : ∀ r ∈ rows, r ≠ [] := by
    intro r hr hc
    have := hw r hr
    rw [hc] at this
    simp at this
    omega
  refine ⟨get_entropyE_eq hnonempty, ?_, find_best_splitE_eq hw, ?_, ?_⟩
  · intro i hi
    exact split_datasetE_eq (fun r hr => by rw [hw r hr]; exact hi)
  · exact build_treeE_eq (sizeRows rows + 1) rows headers (Nat.lt_succ_self _) hw hh
  · intro observation t
    exact classifyE_eq observation t

/-- Claim C8 witness at a concrete well-formed dataset. -/
theorem claim_C8_wit :
    get_entropyE [["A"]] = some (get_entropy [["A"]]) ∧
    (∀ i < (["t"] : List String).length,
      split_datasetE [["A"]] i = some (split_dataset [["A"]] i)) ∧
    find_best_splitE [["A"]] = some (find_best_split [["A"]]) ∧
    build_treeE (sizeRows [["A"]] + 1) [["A"]] ["t"] = some (build [["A"]] ["t"]) ∧
    (∀ observation t, classifyE observation t = some (classify observation t)) :=
  claim_C8 [["A"]] ["t"] (by decide) (by decide)

theorem getD_eraseIdx_lt {α : Type} :
    ∀ (l : List α) (i j : Nat) (d : α), j < i →
      (l.eraseIdx i).getD j d = l.getD j d := by
  intro l
  induction l with
  | nil => intro i j d _; rfl
  | cons a rest ih =>
    intro i j d hj
    cases i with
    | zero => omega
    | succ i2 =>
      rw [List.eraseIdx_cons_succ]
      cases j with
      | zero => rfl
      | succ j2 =>
        rw [List.getD_cons_succ, List.getD_cons_succ]
        exact ih i2 j2 d (by omega)

theorem getD_eraseIdx_ge {α : Type} :
    ∀ (l : List α) (i j : Nat) (d : α), i ≤ j →
      (l.eraseIdx i).getD j d = l.getD (j + 1) d := by
  intro l
  induction l with
  | nil => intro i j d _; rfl
  | cons a rest ih =>
    intro i j d hij
    cases i with
    | zero =>
      rw [List.eraseIdx_cons_zero, List.getD_cons_succ]
    | succ i2 =>
      rw [List.eraseIdx_cons_succ]
      cases j with
      | zero => omega
      | succ j2 =>
        rw [List.getD_cons_succ, List.getD_cons_succ]
        exact ih i2 j2 d (by omega)

theorem getLast?_drop_of_lt {α : Type} :
    ∀ (n : Nat) (l : List α), n < l.length →
      (l.drop n).getLast? = l.getLast? := by
  intro n
  induction n with
  | zero => intro l _; rfl
  | succ m ih =>
    intro l hl
    cases l with
    | nil => simp at hl
    | cons a rest =>
      rw [List.drop_succ_cons]
      rw [ih rest (by simp at hl; omega)]
      cases rest with
      | nil => simp at hl
      | cons b rest2 => rw [List.getLast?_cons_cons]

theorem lastLabel_eraseIdx {row : Row} {i : Nat} (h : i + 1 < row.length) :
    lastLabel (row.eraseIdx i) = lastLabel row := by
  unfold lastLabel
  rw [List.getLastD_eq_getLast?, List.getLastD_eq_getLast?]
  rw [List.eraseIdx_eq_take_drop_succ]
  have hdne : row.drop (i + 1) ≠ [] := by
    intro hc
    have := List.drop_eq_nil_iff.1 hc
    omega
  rw [List.getLast?_append_of_ne_nil _ hdne]
  rw [getLast?_drop_of_lt (i + 1) row h]

theorem lookupStr_map_snd {α β : Type} (l : List (String × α)) (f : α → β)
    (k : String) :
    lookupStr (l.map (fun p => (p.1, f p.2))) k = (lookupStr l k).map f := by
  induction l with
  | nil => rfl
  | cons p rest ih =>
    obtain ⟨k2, a⟩ := p
    by_cases hk : k2 = k
    · simp [lookupStr, hk]
    · simp [lookupStr, hk, ih]

theorem getD_mem_of_lt {α : Type} :
    ∀ (l : List α) (n : Nat) (d : α), n < l.length → l.getD n d ∈ l := by
  intro l
  induction l with
  | nil => intro n d h; simp at h
  | cons a rest ih =>
    intro n d h
    cases n with
    | zero => exact List.mem_cons_self _ _
    | succ m =>
      rw [List.getD_cons_succ]
      exact List.mem_cons_of_mem _ (ih m d (by simp at h; omega))

theorem lookupStr_zip_getD :
    ∀ (headers : List String) (row : Row),
      headers.Nodup → row.length = headers.length →
      ∀ j, j < headers.length →
        lookupStr (headers.zip row) (headers.getD j "") = some (row.getD j "") := by
  intro headers
  induction headers with
  | nil => intro row _ _ j hj; simp at hj
  | cons h hs ih =>
    intro row hnd hlen j hj
    cases row with
    | nil => simp at hlen
    | cons r rs =>
      rw [List.zip_cons_cons]
      cases j with
      | zero =>
        rw [List.getD_cons_zero, List.getD_cons_zero]
        simp [lookupStr]
      | succ j2 =>
        rw [List.getD_cons_succ, List.getD_cons_succ]
        have hjlen : j2 < hs.length := by simp at hj; omega
        have hkey : hs.getD j2 "" ∈ hs := getD_mem_of_lt hs j2 "" hjlen
        have hne2 : h ≠ hs.getD j2 "" := by
          intro hc
          rw [List.nodup_cons] at hnd
          exact hnd.1 (hc ▸ hkey)
        simp only [lookupStr, if_neg hne2]
        exact ih rs (List.nodup_cons.1 hnd).2 (by simp at hlen; omega) j2 hjlen

theorem pure_leaf_label {rows : Rows} {row : Row} (hrow : row ∈ rows)
    (hpure : (countsOf rows).length = 1) :
    ((countsOf rows).headD ("", 0)).1 = lastLabel row := by
  rcases hcs : countsOf rows with _ | ⟨kv, rest⟩
  · rw [hcs] at hpure
    simp at hpure
  · have hrest : rest = [] := by
      rw [hcs] at hpure
      simpa using hpure
    subst hrest
    have hmem : lastLabel row ∈ (countsOf rows).map Prod.fst :=
      (mem_keys_countsOf rows (lastLabel row)).2 ⟨row, hrow, rfl⟩
    rw [hcs] at hmem
    simp at hmem
    simp only [List.headD_cons]
    exact hmem.symm

theorem lookupStr_map_build (fuel : Nat) (nh : List String) :
    ∀ (l : List (String × Rows)) (k : String),
      lookupStr (l.map (fun p => (p.1, build_tree fuel p.2 nh))) k =
        (lookupStr l k).map (fun g => build_tree fuel g nh) := by
  intro l
  induction l with
  | nil => intro k; rfl
  | cons p rest ih =>
    intro k
    obtain ⟨k2, a⟩ := p
    by_cases hk : k2 = k
    · simp [lookupStr, hk]
    · simp [lookupStr, hk, ih]

theorem build_classify_aux :
    ∀ (fuel : Nat) (rows : Rows) (headers : List String) (row : Row)
      (observation : Obs),
      gainfulRec fuel rows →
      row ∈ rows →
      (∀ r ∈ rows, r.length = headers.length) →
      headers.Nodup →
      (∀ j, j + 1 < headers.length →
        lookupStr observation (headers.getD j "") = some (row.getD j "")) →
      classify observation (build_tree fuel rows headers) = some (lastLabel row) := by
  intro fuel
  induction fuel with
  | zero =>
    intro rows headers row observation hgain _ _ _ _
    simp only [gainfulRec] at hgain
  | succ f ih =>
    intro rows headers row observation hgain hrow hw hnd hobs
    have hne : rows ≠ [] := List.ne_nil_of_mem hrow
    have hwidth : (rows.headD []).length = headers.length := by
      cases rows with
      | nil => exact absurd rfl hne
      | cons r rest => exact hw r (List.mem_cons_self _ _)
    rw [build_tree_succ, if_neg hne]
    by_cases hpure : (countsOf rows).length = 1
    · rw [if_pos hpure, classify_leaf]
      rw [pure_leaf_label hrow hpure]
    · rw [if_neg hpure]
      simp only [gainfulRec] at hgain
      rcases hgain with h | h | h
      · exact absurd h hne
      · exact absurd h hpure
      obtain ⟨hw2, hg, hrec⟩ := h
      rw [if_neg (by omega : ¬ (rows.headD []).length = 1)]
      rw [if_neg hg]
      have hjw := gain_index_lt_width hg
      have hidxh : (find_best_split rows).1.toNat < headers.length := by omega
      have hidxh1 : (find_best_split rows).1.toNat + 1 < headers.length := by omega
      have hfeat : lookupStr observation
          (headers.getD (find_best_split rows).1.toNat "") =
          some (row.getD (find_best_split rows).1.toNat "") :=
        hobs _ hidxh1
      obtain ⟨g, hlg, hmemg⟩ := row_in_split (find_best_split rows).1.toNat hrow
      have hlchild : lookupStr ((split_dataset rows (find_best_split rows).1.toNat).map
          (fun p => (p.1, build_tree f p.2
            (headers.eraseIdx (find_best_split rows).1.toNat))))
          (row.getD (find_best_split rows).1.toNat "") =
          some (build_tree f g (headers.eraseIdx (find_best_split rows).1.toNat)) := by
        rw [lookupStr_map_build]
        have hval : valAt row (find_best_split rows).1.toNat =
            row.getD (find_best_split rows).1.toNat "" := rfl
        rw [← hval, hlg]
        rfl
      rw [classify_node_child hfeat hlchild]
      have hlabel : lastLabel (row.eraseIdx (find_best_split rows).1.toNat) =
          lastLabel row := by
        apply lastLabel_eraseIdx
        rw [hw row hrow]
        omega
      rw [← hlabel]
      apply ih g (headers.eraseIdx (find_best_split rows).1.toNat)
        (row.eraseIdx (find_best_split rows).1.toNat) observation
      · exact hrec _ (lookupStr_mem hlg)
      · exact hmemg
      · intro r2 hr2
        have hgl := mem_group_length (lookupStr_mem hlg) hw hidxh r2 hr2
        rw [hgl, List.length_eraseIdx_of_lt hidxh]
      · exact List.Sublist.nodup (List.eraseIdx_sublist headers _) hnd
      · intro j hj
        have hnh : (headers.eraseIdx (find_best_split rows).1.toNat).length =
            headers.length - 1 := List.length_eraseIdx_of_lt hidxh
        by_cases hcase : j < (find_best_split rows).1.toNat
        · rw [getD_eraseIdx_lt headers _ j "" hcase,
            getD_eraseIdx_lt row _ j "" hcase]
          exact hobs j (by omega)
        · push_neg at hcase
          rw [getD_eraseIdx_ge headers _ j "" hcase,
            getD_eraseIdx_ge row _ j "" hcase]
          exact hobs (j + 1) (by omega)

/-- Claim C1 (amended): on a dataset with no contradictions whose recursion,
in addition, always finds a strictly positive best gain on impure row sets
(`gainfulRec`), with rows matching the headers in width and distinct header
names, building a tree and classifying any training row returns that row's
own label.  The extra gain condition is forced by the counterexample
`claim_C1_cex`: zero-gain impure datasets fall back to majority vote. -/
theorem claim_C1 (rows : Rows) (headers : List String) (row : Row)
    (hnc : noContradiction rows)
    (hgain : gainfulRec (sizeRows rows + 1) rows)
    (hw : ∀ r ∈ rows, r.length = headers.length)
    (hnd : headers.Nodup)
    (hrow : row ∈ rows) :
    classify (headers.zip row) (build rows headers) = some (lastLabel row) := by
  apply build_classify_aux (sizeRows rows + 1) rows headers row (headers.zip row)
    hgain hrow hw hnd
  intro j hj
  exact lookupStr_zip_getD headers row hnd (hw row hrow) j (by omega)

/-- Claim C1 witness at a concrete one-row dataset. -/
theorem claim_C1_wit :
    classify ((["t"] : List String).zip ["A"]) (build [["A"]] ["t"]) =
      some (lastLabel ["A"]) := by
  apply claim_C1
  · decide
  · simp only [gainfulRec]
    right
    left
    decide
  · decide
  · decide
  · decide

theorem logb_two_inv_two : Real.logb 2 ((2 : ℝ)⁻¹) = -1 := by
  rw [Real.logb_inv, Real.logb_self_eq_one (by norm_num)]

theorem entTerm_4_2 : entTerm ((4 : Nat) : ℝ) 2 = 1 / 2 := by
  unfold entTerm
  rw [if_pos (by norm_num : ((2 : Nat) : ℝ) / ((4 : Nat) : ℝ) > 0)]
  have h24 : ((2 : Nat) : ℝ) / ((4 : Nat) : ℝ) = (2 : ℝ)⁻¹ := by
    push_cast
    norm_num
  rw [h24, logb_two_inv_two]
  norm_num

theorem entTerm_2_1 : entTerm ((2 : Nat) : ℝ) 1 = 1 / 2 := by
  unfold entTerm
  rw [if_pos (by norm_num : ((1 : Nat) : ℝ) / ((2 : Nat) : ℝ) > 0)]
  have h12 : ((1 : Nat) : ℝ) / ((2 : Nat) : ℝ) = (2 : ℝ)⁻¹ := by
    push_cast
    norm_num
  rw [h12, logb_two_inv_two]
  norm_num

theorem entropy_xor_full :
    get_entropy [["0", "0", "No"], ["0", "1", "Yes"], ["1", "0", "Yes"],
      ["1", "1", "No"]] = 1 := by
  rw [get_entropy_eq_sum (by simp)]
  have hc : countsOf [["0", "0", "No"], ["0", "1", "Yes"], ["1", "0", "Yes"],
      ["1", "1", "No"]] = [("No", 2), ("Yes", 2)] := by decide
  rw [hc]
  have hlen : ([["0", "0", "No"], ["0", "1", "Yes"], ["1", "0", "Yes"],
      ["1", "1", "No"]] : Rows).length = 4 := rfl
  rw [hlen]
  simp only [List.map_cons, List.map_nil, List.sum_cons, List.sum_nil]
  rw [entTerm_4_2]
  norm_num

theorem entropy_pair_a : get_entropy [["0", "No"], ["1", "Yes"]] = 1 := by
  rw [get_entropy_eq_sum (by simp)]
  have hc : countsOf [["0", "No"], ["1", "Yes"]] = [("No", 1), ("Yes", 1)] := by
    decide
  rw [hc]
  have hlen : ([["0", "No"], ["1", "Yes"]] : Rows).length = 2 := rfl
  rw [hlen]
  simp only [List.map_cons, List.map_nil, List.sum_cons, List.sum_nil]
  rw [entTerm_2_1]
  norm_num

theorem entropy_pair_b : get_entropy [["0", "Yes"], ["1", "No"]] = 1 := by
  rw [get_entropy_eq_sum (by simp)]
  have hc : countsOf [["0", "Yes"], ["1", "No"]] = [("Yes", 1), ("No", 1)] := by
    decide
  rw [hc]
  have hlen : ([["0", "Yes"], ["1", "No"]] : Rows).length = 2 := rfl
  rw [hlen]
  simp only [List.map_cons, List.map_nil, List.sum_cons, List.sum_nil]
  rw [entTerm_2_1]
  norm_num

theorem weighted_xor_0 :
    weighted_entropy [["0", "0", "No"], ["0", "1", "Yes"], ["1", "0", "Yes"],
      ["1", "1", "No"]] 0 = 1 := by
  unfold weighted_entropy
  have hs : split_dataset [["0", "0", "No"], ["0", "1", "Yes"], ["1", "0", "Yes"],
      ["1", "1", "No"]] 0 =
      [("0", [["0", "No"], ["1", "Yes"]]), ("1", [["0", "Yes"], ["1", "No"]])] := by
    decide
  rw [hs]
  simp only [List.foldl_cons, List.foldl_nil]
  rw [entropy_pair_a, entropy_pair_b]
  norm_num

theorem weighted_xor_1 :
    weighted_entropy [["0", "0", "No"], ["0", "1", "Yes"], ["1", "0", "Yes"],
      ["1", "1", "No"]] 1 = 1 := by
  unfold weighted_entropy
  have hs : split_dataset [["0", "0", "No"], ["0", "1", "Yes"], ["1", "0", "Yes"],
      ["1", "1", "No"]] 1 =
      [("0", [["0", "No"], ["1", "Yes"]]), ("1", [["0", "Yes"], ["1", "No"]])] := by
    decide
  rw [hs]
  simp only [List.foldl_cons, List.foldl_nil]
  rw [entropy_pair_a, entropy_pair_b]
  norm_num

theorem gain_xor_0 :
    gainAt [["0", "0", "No"], ["0", "1", "Yes"], ["1", "0", "Yes"],
      ["1", "1", "No"]] 0 = 0 := by
  unfold gainAt
  rw [entropy_xor_full, weighted_xor_0]
  ring

theorem gain_xor_1 :
    gainAt [["0", "0", "No"], ["0", "1", "Yes"], ["1", "0", "Yes"],
      ["1", "1", "No"]] 1 = 0 := by
  unfold gainAt
  rw [entropy_xor_full, weighted_xor_1]
  ring

theorem fbs_xor :
    find_best_split [["0", "0", "No"], ["0", "1", "Yes"], ["1", "0", "Yes"],
      ["1", "1", "No"]] = (-1, 0.0) := by
  rw [find_best_split_eq_fold (by decide)]
  have h0 : fbsFold [["0", "0", "No"], ["0", "1", "Yes"], ["1", "0", "Yes"],
      ["1", "1", "No"]] 0 = (-1, 0.0) := rfl
  have e1 : fbsFold [["0", "0", "No"], ["0", "1", "Yes"], ["1", "0", "Yes"],
      ["1", "1", "No"]] (0 + 1) = (-1, 0.0) := by
    rw [fbsFold_succ, gain_xor_0, h0]
    rw [if_neg (by norm_num : ¬ ((0 : ℝ) > ((-1 : Int), (0.0 : ℝ)).2))]
  have e2 : fbsFold [["0", "0", "No"], ["0", "1", "Yes"], ["1", "0", "Yes"],
      ["1", "1", "No"]] (1 + 1) = (-1, 0.0) := by
    rw [fbsFold_succ, gain_xor_1]
    rw [show (1 : ℕ) = 0 + 1 from rfl, e1]
    rw [if_neg (by norm_num : ¬ ((0 : ℝ) > ((-1 : Int), (0.0 : ℝ)).2))]
  rw [show ((([["0", "0", "No"], ["0", "1", "Yes"], ["1", "0", "Yes"],
      ["1", "1", "No"]] : Rows).headD []).length - 1) = 1 + 1 from rfl]
  exact e2

theorem build_xor :
    build [["0", "0", "No"], ["0", "1", "Yes"], ["1", "0", "Yes"], ["1", "1", "No"]]
      ["a", "b", "play"] = DTree.leaf (some "No") := by
  have hb : build [["0", "0", "No"], ["0", "1", "Yes"], ["1", "0", "Yes"],
      ["1", "1", "No"]] ["a", "b", "play"] =
      build_tree (sizeRows [["0", "0", "No"], ["0", "1", "Yes"], ["1", "0", "Yes"],
        ["1", "1", "No"]] + 1)
        [["0", "0", "No"], ["0", "1", "Yes"], ["1", "0", "Yes"], ["1", "1", "No"]]
        ["a", "b", "play"] := rfl
  rw [hb, build_tree_succ]
  rw [if_neg (by simp : ¬ ([["0", "0", "No"], ["0", "1", "Yes"], ["1", "0", "Yes"],
      ["1", "1", "No"]] : Rows) = [])]
  rw [if_neg (by decide : ¬ (countsOf [["0", "0", "No"], ["0", "1", "Yes"],
      ["1", "0", "Yes"], ["1", "1", "No"]]).length = 1)]
  rw [if_neg (by decide : ¬ (([["0", "0", "No"], ["0", "1", "Yes"],
      ["1", "0", "Yes"], ["1", "1", "No"]] : Rows).headD []).length = 1)]
  rw [fbs_xor]
  rw [if_pos (by norm_num : ((-1 : Int), (0.0 : ℝ)).2 = 0)]
  have hm : majority (countsOf [["0", "0", "No"], ["0", "1", "Yes"],
      ["1", "0", "Yes"], ["1", "1", "No"]]) = "No" := by decide
  rw [hm]

/-- Claim C1 counterexample: the XOR-style dataset below has pairwise
distinct feature vectors (so no contradictions), every column has zero
information gain, and `build` falls back to the majority label "No"; the
training row ["0","1","Yes"] is then classified as "No", not its own label
"Yes" — refuting the claim as stated. -/
theorem claim_C1_cex :
    noContradiction [["0", "0", "No"], ["0", "1", "Yes"], ["1", "0", "Yes"],
      ["1", "1", "No"]] ∧
    ["0", "1", "Yes"] ∈ ([["0", "0", "No"], ["0", "1", "Yes"], ["1", "0", "Yes"],
      ["1", "1", "No"]] : Rows) ∧
    classify ((["a", "b", "play"] : List String).zip ["0", "1", "Yes"])
        (build [["0", "0", "No"], ["0", "1", "Yes"], ["1", "0", "Yes"],
          ["1", "1", "No"]] ["a", "b", "play"]) = some "No" ∧
    ¬ classify ((["a", "b", "play"] : List String).zip ["0", "1", "Yes"])
        (build [["0", "0", "No"], ["0", "1", "Yes"], ["1", "0", "Yes"],
          ["1", "1", "No"]] ["a", "b", "play"]) =
      some (lastLabel ["0", "1", "Yes"]) := by
  refine ⟨by decide, by simp, ?_, ?_⟩
  · rw [build_xor, classify_leaf]
  · rw [build_xor, classify_leaf]
    decide
